import Mathlib

set_option autoImplicit false

/-!
# Verification of the constitutional-rule inheritance resolver and session store

Shallow embedding of the rule-inheritance resolver
(`build/utils/httpTransportWrapper.js`, functions `loadRuleSet`,
`resolveInheritanceChain`, `resolveRules`, `getEffectiveRules`,
`validateRules`), the CLI validator (`validateConstitutionalRules` in
`src/cli/validate.ts`), and the session constitution store
(`src/tools/constitution.ts`).

Modelling conventions:
* File paths are abstract identifiers.  `path.resolve`/`path.dirname`
  arithmetic is abstracted away: an `extends` entry is taken to already be
  the (absolute) key of the parent document in the file system, so path
  resolution is the identity.  This preserves the chain / cycle / merge
  logic exactly.
* The file system is an association list from absolute path to parsed
  `RuleDocument` (the JSON layer is not modelled; `loadRuleSet` throwing
  `Rule set file not found` corresponds to a missing key).
* JS objects used as string-keyed maps (`mergedRules`, `sources`,
  `constitutionMap`) are association lists in key-insertion order:
  assigning to an existing key keeps its position, assigning to a new key
  appends it.  This is the ECMAScript enumeration order for the
  non-integer-like keys (kebab-case rule ids, session ids) the code uses.
* General recursion over the file graph (`resolveInheritanceChain`) is
  embedded with explicit fuel; `none` means the fuel ran out.  Fuel
  monotonicity and a termination theorem below show the recursion
  stabilises on every input, so the fuel is a pure modelling artifact.
* JS falsiness of a string field (`!rule.name`) is emptiness of the
  corresponding `String` field.
-/

/-- `rule.validation` sub-object: `{automatable, scriptPath}`.  An absent
`scriptPath` is represented by `""` (both are JS-falsy in the only test the
code performs, `!rule.validation.scriptPath`). -/
structure RuleValidation where
  automatable : Bool
  scriptPath : String
deriving Repr, DecidableEq

/-- A single policy rule, as stored under a rule id in a document's `rules`
map.  `rationale` uses `""` for absent; `examples` distinguishes an absent
array (`none`) from a present empty one (`some []`), which the CLI
validator treats differently. -/
structure Rule where
  name : String
  description : String
  category : String
  severity : String
  enabled : Bool
  rationale : String
  examples : Option (List String)
  validation : Option RuleValidation
deriving Repr, DecidableEq

/-- A partial rule, as stored under a rule id in a document's `overrides`
map.  `none` means the field is absent from the override object, so the
spread `{...rule, ...override}` leaves the base field unchanged. -/
structure RuleOverride where
  name : Option String
  description : Option String
  category : Option String
  severity : Option String
  enabled : Option Bool
  rationale : Option String
  examples : Option (List String)
  validation : Option RuleValidation
deriving Repr, DecidableEq

/-- The shallow merge `{...rule, ...override}`: every key present on the
override object replaces the base field. -/
def applyOverride (r : Rule) (o : RuleOverride) : Rule where
  name := o.name.getD r.name
  description := o.description.getD r.description
  category := o.category.getD r.category
  severity := o.severity.getD r.severity
  enabled := o.enabled.getD r.enabled
  rationale := o.rationale.getD r.rationale
  examples := o.examples.or r.examples
  validation := o.validation.or r.validation

/-- A parsed rule-document file: `version`, ordered `extends` list, and the
`rules` / `overrides` maps in key-insertion order. -/
structure RuleDocument where
  version : String
  extendsList : List String
  rules : List (String × Rule)
  overrides : List (String × RuleOverride)
deriving Repr, DecidableEq

/-- The file system: absolute path → parsed document. -/
abbrev FileSys := List (String × RuleDocument)

/-- First-match lookup in a string-keyed association list. -/
def objLookup {β : Type} : List (String × β) → String → Option β
  | [], _ => none
  | (k, v) :: rest, key => if k = key then some v else objLookup rest key

/-- JS object assignment `m[k] = v`: an existing key keeps its position, a
new key is appended at the end. -/
def objInsert {β : Type} : List (String × β) → String → β → List (String × β)
  | [], k, v => [(k, v)]
  | (k0, v0) :: rest, k, v =>
      if k0 = k then (k0, v) :: rest else (k0, v0) :: objInsert rest k v

/-- `resolveInheritanceChain`, embedded with fuel over a worklist.
`resolveMany fs fuel ps visited` resolves each path of `ps` in order
against the same `visited` set (the JS code hands each parent a fresh
`new Set(visited)` copy, so siblings do not see each other's descents) and
concatenates the chains.  A single path `p` is resolved by the head case
with `ps = [p]`: cycle check against `visited`, `loadRuleSet`, leaf check,
then the parents are resolved with `p` added to the visited set and `p` is
appended last.  `none` means the fuel ran out. -/
def resolveMany (fs : FileSys) : Nat → List String → List String →
    Option (Except String (List String))
  | 0, _, _ => none
  | _ + 1, [], _ => some (Except.ok [])
  | fuel + 1, p :: ps, visited =>
    if p ∈ visited then some (Except.error ("Circular dependency detected: " ++ p))
    else
      match objLookup fs p with
      | none => some (Except.error ("Rule set file not found: " ++ p))
      | some doc =>
        let selfChain :=
          if doc.extendsList = [] then some (Except.ok [p])
          else
            match resolveMany fs fuel doc.extendsList (p :: visited) with
            | none => none
            | some (Except.error e) => some (Except.error e)
            | some (Except.ok parentChain) => some (Except.ok (parentChain ++ [p]))
        match selfChain with
        | none => none
        | some (Except.error e) => some (Except.error e)
        | some (Except.ok chain1) =>
          match resolveMany fs fuel ps visited with
          | none => none
          | some (Except.error e) => some (Except.error e)
          | some (Except.ok chain2) => some (Except.ok (chain1 ++ chain2))

/-- Top-level `resolveInheritanceChain(ruleSetPath)`: the `visited`
default-argument is a fresh empty set on every top-level call, so no state
leaks between resolutions. -/
def resolveChain (fs : FileSys) (p : String) (fuel : Nat) :
    Option (Except String (List String)) :=
  resolveMany fs fuel [p] []

/-- A conflict record `{ruleId, conflict, sources}`. -/
structure Conflict where
  ruleId : String
  conflict : String
  sources : List String
deriving Repr, DecidableEq

/-- The accumulator of `resolveRules`: merged rules, provenance, conflicts. -/
structure Resolved where
  rules : List (String × Rule)
  sources : List (String × List String)
  conflicts : List Conflict
deriving Repr, DecidableEq

/-- `sources[ruleId] = sources[ruleId] || []; sources[ruleId].push(entry)`. -/
def sourcesPush (m : List (String × List String)) (k : String) (entry : String) :
    List (String × List String) :=
  match objLookup m k with
  | some l => objInsert m k (l ++ [entry])
  | none => m ++ [(k, [entry])]

/-- One iteration of the `rules` merge loop of `resolveRules`: if the id is
already present, record a redefinition conflict citing the first recorded
source and the current file, then overwrite; always push the current file
onto the id's source list.  (`sources[ruleId][0]` is only evaluated when
the rule already exists, in which case its source list is nonempty; the
`"undefined"` default is unreachable.) -/
def applyRuleEntry (filePath : String) (st : Resolved) (kv : String × Rule) :
    Resolved :=
  let conflicts' :=
    match objLookup st.rules kv.1 with
    | some _ =>
        st.conflicts ++
          [{ ruleId := kv.1,
             conflict := "Rule redefined in " ++ filePath,
             sources := [((objLookup st.sources kv.1).getD []).headD "undefined",
                         filePath] }]
    | none => st.conflicts
  { rules := objInsert st.rules kv.1 kv.2,
    sources := sourcesPush st.sources kv.1 filePath,
    conflicts := conflicts' }

/-- One iteration of the `overrides` loop of `resolveRules`: a missing
target id records a dangling-override conflict and skips; otherwise the
override is shallow-merged onto the existing rule and an
`"(override)"`-tagged source entry is pushed. -/
def applyOverrideEntry (filePath : String) (st : Resolved)
    (kv : String × RuleOverride) : Resolved :=
  match objLookup st.rules kv.1 with
  | none =>
      { st with
        conflicts := st.conflicts ++
          [{ ruleId := kv.1,
             conflict := "Override for non-existent rule in " ++ filePath,
             sources := [filePath] }] }
  | some r =>
      { rules := objInsert st.rules kv.1 (applyOverride r kv.2),
        sources := sourcesPush st.sources kv.1 (filePath ++ " (override)"),
        conflicts := st.conflicts }

/-- Processing of one chain file in `resolveRules`: all of the document's
`rules` entries are merged first, then all of its `overrides` are applied. -/
def mergeDoc (st : Resolved) (filePath : String) (doc : RuleDocument) : Resolved :=
  doc.overrides.foldl (applyOverrideEntry filePath)
    (doc.rules.foldl (applyRuleEntry filePath) st)

/-- The chain-processing loop of `resolveRules`; each file is re-loaded
with `loadRuleSet`, which throws if the file is missing. -/
def mergeChain (fs : FileSys) : List String → Resolved → Except String Resolved
  | [], st => Except.ok st
  | p :: rest, st =>
    match objLookup fs p with
    | none => Except.error ("Rule set file not found: " ++ p)
    | some doc => mergeChain fs rest (mergeDoc st p doc)

def emptyResolved : Resolved := { rules := [], sources := [], conflicts := [] }

/-- `resolveRules(ruleSetPath)`: resolve the inheritance chain, then fold
the merge over it starting from empty accumulators. -/
def resolveRules (fs : FileSys) (p : String) (fuel : Nat) :
    Option (Except String Resolved) :=
  match resolveChain fs p fuel with
  | none => none
  | some (Except.error e) => some (Except.error e)
  | some (Except.ok chain) => some (mergeChain fs chain emptyResolved)

/-- The `severityOrder` lookup table `{CRITICAL: 0, HIGH: 1, MEDIUM: 2, LOW: 3}`;
`none` models the JS `undefined` for any other string. -/
def severityRank (s : String) : Option Nat :=
  if s = "CRITICAL" then some 0
  else if s = "HIGH" then some 1
  else if s = "MEDIUM" then some 2
  else if s = "LOW" then some 3
  else none

/-- The severity rank a rule sorts by; the `getD 0` default is never
reached under the four-literal hypothesis all ordering theorems assume. -/
def ruleSevRank (r : Rule) : Nat :=
  (severityRank r.severity).getD 0

/-- The sort order of `getEffectiveRules`.  For two rules carrying valid
severity literals this is exactly
`severityOrder[a.severity] - severityOrder[b.severity] <= 0`.  For an
invalid severity the JS subtraction yields `NaN`, for which
`Array.prototype.sort`'s behavior is unspecified (the ES `SortCompare`
abstraction treats `NaN` as `+0`); we default the rank to `0` so the
comparator stays a total preorder.  All theorems below assume the
four-literal hypothesis, under which the two models coincide. -/
def ruleLE (a b : Rule) : Prop :=
  ruleSevRank a ≤ ruleSevRank b

instance ruleLE_decidable : DecidableRel ruleLE :=
  fun a b => Nat.decLe (ruleSevRank a) (ruleSevRank b)

instance ruleLE_total : IsTotal Rule ruleLE :=
  ⟨fun a b => Nat.le_total (ruleSevRank a) (ruleSevRank b)⟩

instance ruleLE_isTrans : IsTrans Rule ruleLE :=
  ⟨fun _ _ _ h1 h2 => Nat.le_trans h1 h2⟩

/-- `getEffectiveRules(ruleSetPath)`: `Object.values(rules)` in key order,
filtered to `enabled`, stably sorted by severity rank.  `Array.prototype.sort`
is required to be stable (and the JS comparator is a total preorder on
valid severities, under which every stable sort produces the same output),
so the sort is embedded as a stable insertion sort. -/
def getEffectiveRules (fs : FileSys) (p : String) (fuel : Nat) :
    Option (Except String (List Rule)) :=
  match resolveRules fs p fuel with
  | none => none
  | some (Except.error e) => some (Except.error e)
  | some (Except.ok st) =>
      some (Except.ok
        (List.insertionSort ruleLE ((st.rules.map Prod.snd).filter (fun r => r.enabled))))

/-- Character-list prefix test (Bool-valued, used by the substring test). -/
def isPrefixChars : List Char → List Char → Bool
  | [], _ => true
  | _ :: _, [] => false
  | a :: as, b :: bs => a == b && isPrefixChars as bs

/-- `containsAux pat l`: does `pat` occur as a contiguous run inside `l`? -/
def containsAux (pat : List Char) : List Char → Bool
  | [] => isPrefixChars pat []
  | b :: bs => isPrefixChars pat (b :: bs) || containsAux pat bs

/-- JS `String.prototype.includes`. -/
def strContains (s pat : String) : Bool :=
  containsAux pat.data s.data

/-- The defensive duplicate-id pass of `validateRules`: walk the key list
with a `seen` set, reporting every key already seen. -/
def dupIdErrors : List String → List String → List String
  | _, [] => []
  | seen, k :: rest =>
      (if k ∈ seen then ["Duplicate rule ID: " ++ k] else []) ++
        dupIdErrors (k :: seen) rest

/-- The required-field pass of `validateRules`: an error for each empty
`name`, `description`, `severity` field, in rule order. -/
def missingFieldErrors : List (String × Rule) → List String
  | [] => []
  | (k, r) :: rest =>
      (if r.name = "" then ["Rule " ++ k ++ " missing required field: name"] else []) ++
      (if r.description = "" then ["Rule " ++ k ++ " missing required field: description"] else []) ++
      (if r.severity = "" then ["Rule " ++ k ++ " missing required field: severity"] else []) ++
      missingFieldErrors rest

/-- The `{valid, errors, warnings}` result of both validators. -/
structure Validation where
  valid : Bool
  errors : List String
  warnings : List String
deriving Repr, DecidableEq

/-- `validateRules(ruleSetPath)`: conflicts whose message contains
`"non-existent"` become errors, the rest warnings; then the duplicate-id
check and the required-field check; `valid` iff no errors. -/
def validateRules (fs : FileSys) (p : String) (fuel : Nat) :
    Option (Except String Validation) :=
  match resolveRules fs p fuel with
  | none => none
  | some (Except.error e) => some (Except.error e)
  | some (Except.ok st) =>
    let errors :=
      (st.conflicts.filter (fun c => strContains c.conflict "non-existent")).map
          (fun c => c.conflict) ++
        dupIdErrors [] (st.rules.map Prod.fst) ++ missingFieldErrors st.rules
    some (Except.ok
      { valid := errors.isEmpty,
        errors := errors,
        warnings :=
          (st.conflicts.filter (fun c => !strContains c.conflict "non-existent")).map
            (fun c => c.conflict) })

/-- The four allowed severity literals. -/
def allowedSeverities : List String := ["CRITICAL", "HIGH", "MEDIUM", "LOW"]

/-- Step 5 of the CLI validator (`validateConstitutionalRules`), error part:
per rule, an error for each empty `name`/`description`/`category`/`severity`
field, and an error when a non-empty `severity` is not one of the four
allowed literals. -/
def vcRuleErrors : List (String × Rule) → List String
  | [] => []
  | (k, r) :: rest =>
      (if r.name = "" then ["Rule " ++ k ++ ": missing required field \x27name\x27"] else []) ++
      (if r.description = "" then ["Rule " ++ k ++ ": missing required field \x27description\x27"] else []) ++
      (if r.category = "" then ["Rule " ++ k ++ ": missing required field \x27category\x27"] else []) ++
      (if r.severity = "" then ["Rule " ++ k ++ ": missing required field \x27severity\x27"] else []) ++
      (if r.severity ≠ "" ∧ r.severity ∉ allowedSeverities then
        ["Rule " ++ k ++ ": invalid severity \x27" ++ r.severity ++
          "\x27 (must be CRITICAL, HIGH, MEDIUM, or LOW)"]
      else []) ++
      vcRuleErrors rest

/-- Step 5 of the CLI validator, warning part: present-but-empty `examples`
array, and `validation.automatable` without a `scriptPath`. -/
def vcRuleWarnings : List (String × Rule) → List String
  | [] => []
  | (k, r) :: rest =>
      (if r.examples = some [] then
        ["Rule " ++ k ++ ": has empty examples array (consider removing or adding examples)"]
      else []) ++
      (match r.validation with
       | some v =>
          if v.automatable && v.scriptPath = "" then
            ["Rule " ++ k ++ ": marked as automatable but no scriptPath provided"]
          else []
       | none => []) ++
      vcRuleWarnings rest

/-- `validateConstitutionalRules(rulesFilePath)` from `src/cli/validate.ts`
for an explicitly given path (the `info` display payload is not modelled):
missing file → fatal; a throw from the resolver (cycle / missing parent)
is caught as `Error resolving rules: …`; otherwise the `validateRules`
errors (if invalid) and warnings are carried over, the conflict loop
re-classifies conflicts, and the per-rule step-5 checks run;
`valid` iff no errors. -/
def validateConstitutional (fs : FileSys) (p : String) (fuel : Nat) :
    Option Validation :=
  match objLookup fs p with
  | none =>
      some { valid := false,
             errors := ["Specified rules file not found: " ++ p], warnings := [] }
  | some _ =>
    match validateRules fs p fuel with
    | none => none
    | some (Except.error e) =>
        some { valid := false,
               errors := ["Error resolving rules: " ++ e], warnings := [] }
    | some (Except.ok v) =>
      match resolveRules fs p fuel with
      | none => none
      | some (Except.error e) =>
          some { valid := false,
                 errors := (if v.valid then [] else v.errors) ++
                   ["Error resolving rules: " ++ e],
                 warnings := v.warnings }
      | some (Except.ok st) =>
        let errs :=
          (if v.valid then [] else v.errors) ++
            (st.conflicts.filter (fun c => strContains c.conflict "non-existent")).map
              (fun c => c.conflict) ++
            vcRuleErrors st.rules
        some { valid := errs.isEmpty,
               errors := errs,
               warnings := v.warnings ++
                 (st.conflicts.filter (fun c => !strContains c.conflict "non-existent")).map
                   (fun c => c.conflict ++ " (sources: " ++
                     String.intercalate ", " c.sources ++ ")") ++
                 vcRuleWarnings st.rules }

/-! ## Session constitution store (`src/tools/constitution.ts`) -/

def MAX_RULES_PER_SESSION : Nat := 50

def SESSION_TTL_MS : Nat := 60 * 60 * 1000

/-- A `ConstitutionEntry`: bounded rule-string list, file-provenance flag,
last-touch timestamp (milliseconds). -/
structure ConstitutionEntry where
  rules : List String
  fileLoaded : Bool
  updated : Nat
deriving Repr, DecidableEq

/-- The module-level `constitutionMap`, keyed by session id. -/
abbrev ConstitutionMap := List (String × ConstitutionEntry)

/-- The environment a lazy initialization observes at call time:
whether `getConstitutionalRulesPath()` found a file, and the string
projection `loadConstitutionalRulesAsStrings()` of its effective rules. -/
structure InitEnv where
  pathFound : Bool
  fileRules : List String
deriving Repr, DecidableEq

/-- `initializeSessionConstitution` (name shortened): no-op when the
session already has an entry; otherwise seed the full file-rule list (not
truncated) with `fileLoaded = true`, or an empty list with
`fileLoaded = false` when no rules file was found. -/
def initSessionConstitution (env : InitEnv) (now : Nat) (m : ConstitutionMap)
    (sid : String) : ConstitutionMap :=
  match objLookup m sid with
  | some _ => m
  | none =>
    if env.pathFound then
      objInsert m sid { rules := env.fileRules, fileLoaded := true, updated := now }
    else
      objInsert m sid { rules := [], fileLoaded := false, updated := now }

/-- `updateConstitution(sessionId, rule)`: guard against falsy arguments,
lazily initialize, then `shift` once when the list is already at (or
above) capacity and `push` the new rule. -/
def updateConstitution (env : InitEnv) (now : Nat) (m : ConstitutionMap)
    (sid rule : String) : ConstitutionMap :=
  if sid = "" ∨ rule = "" then m
  else
    let m1 := initSessionConstitution env now m sid
    match objLookup m1 sid with
    | none => m1
    | some e =>
      let newRules :=
        if MAX_RULES_PER_SESSION ≤ e.rules.length then e.rules.drop 1 ++ [rule]
        else e.rules ++ [rule]
      objInsert m1 sid { e with rules := newRules, updated := now }

/-- `resetConstitution(sessionId, rules)`: unconditionally replace the
entry with the list truncated to capacity, clearing `fileLoaded`. -/
def resetConstitution (now : Nat) (m : ConstitutionMap) (sid : String)
    (rules : List String) : ConstitutionMap :=
  if sid = "" then m
  else
    objInsert m sid
      { rules := rules.take MAX_RULES_PER_SESSION, fileLoaded := false, updated := now }

/-- `getConstitution(sessionId)`: lazily initialize, touch `updated`,
return the entry's rules (and the updated store). -/
def getConstitution (env : InitEnv) (now : Nat) (m : ConstitutionMap)
    (sid : String) : List String × ConstitutionMap :=
  let m1 := initSessionConstitution env now m sid
  match objLookup m1 sid with
  | none => ([], m1)
  | some e => (e.rules, objInsert m1 sid { e with updated := now })

/-- The idle sweep `cleanup()`: delete every entry strictly older than the
TTL. -/
def cleanupStore (now : Nat) (m : ConstitutionMap) : ConstitutionMap :=
  m.filter (fun kv => decide (now - kv.2.updated ≤ SESSION_TTL_MS))

/-- One observable operation on the session store, for invariant
statements over arbitrary operation sequences. -/
inductive StoreOp where
  | opInit (env : InitEnv) (sid : String)
  | opGet (env : InitEnv) (sid : String)
  | opAppend (env : InitEnv) (sid rule : String)
  | opReset (sid : String) (rules : List String)
  | opSweep
deriving Repr

/-- Apply one store operation at time `now`. -/
def applyOp (now : Nat) (m : ConstitutionMap) : StoreOp → ConstitutionMap
  | StoreOp.opInit env sid => initSessionConstitution env now m sid
  | StoreOp.opGet env sid => (getConstitution env now m sid).2
  | StoreOp.opAppend env sid r => updateConstitution env now m sid r
  | StoreOp.opReset sid rs => resetConstitution now m sid rs
  | StoreOp.opSweep => cleanupStore now m

/-- Run a timestamped operation sequence. -/
def runOps : List (Nat × StoreOp) → ConstitutionMap → ConstitutionMap
  | [], m => m
  | (now, op) :: rest, m => runOps rest (applyOp now m op)

/-! ## Invariant definitions and concrete witness inputs -/

/-- The count of file-system keys not yet visited, the decreasing measure of
the chain resolver. -/
def unvisitedCount (fs : FileSys) (visited : List String) : Nat :=
  ((fs.map Prod.fst).filter (fun x => !(x ∈ visited : Bool))).length

theorem unvisitedCount_cons_lt {fs : FileSys} {visited : List String} {p : String}
    (hdom : p ∈ fs.map Prod.fst) (hv : p ∉ visited) :
    unvisitedCount fs (p :: visited) < unvisitedCount fs visited := by
  unfold unvisitedCount
  have hsub : List.Sublist
      ((fs.map Prod.fst).filter (fun x => !(x ∈ p :: visited : Bool)))
      ((fs.map Prod.fst).filter (fun x => !(x ∈ visited : Bool))) := by
    apply List.monotone_filter_right
    intro x hx
    simp only [List.mem_cons, decide_eq_true_eq, Bool.not_eq_true', decide_eq_false_iff_not,
      not_or] at hx ⊢
    exact hx.2
  have hmem1 : p ∈ (fs.map Prod.fst).filter (fun x => !(x ∈ visited : Bool)) := by
    simp [List.mem_filter, hdom, hv]
  have hmem2 : p ∉ (fs.map Prod.fst).filter (fun x => !(x ∈ p :: visited : Bool)) := by
    simp [List.mem_filter]
  rcases Nat.lt_or_ge
      ((fs.map Prod.fst).filter (fun x => !(x ∈ p :: visited : Bool))).length
      ((fs.map Prod.fst).filter (fun x => !(x ∈ visited : Bool))).length with h | h
  · exact h
  · exact absurd (hsub.eq_of_length_le h ▸ hmem1) hmem2

theorem resolveMany_succ {fs : FileSys} :
    ∀ (fuel : Nat) (ps visited : List String) (r : Except String (List String)),
      resolveMany fs fuel ps visited = some r →
      resolveMany fs (fuel + 1) ps visited = some r := by
  intro fuel
  induction fuel with
  | zero => intro ps visited r h; simp [resolveMany] at h
  | succ n ih =>
    intro ps visited r h
    match ps with
    | [] => simpa [resolveMany] using h
    | p :: ps =>
      simp only [resolveMany] at h ⊢
      by_cases hv : p ∈ visited
      · simpa [hv] using h
      · simp only [hv, if_false] at h ⊢
        cases hdoc : objLookup fs p with
        | none => simp [hdoc] at h ⊢; exact h
        | some doc =>
          simp only [hdoc] at h ⊢
          by_cases hx : doc.extendsList = []
          · simp only [hx, if_true] at h ⊢
            cases hrest : resolveMany fs n ps visited with
            | none => simp [hrest] at h
            | some r2 =>
              rw [ih _ _ _ hrest]
              cases r2 with
              | error e => simpa [hrest] using h
              | ok c2 => simpa [hrest] using h
          · simp only [hx, if_false] at h ⊢
            cases hpar : resolveMany fs n doc.extendsList (p :: visited) with
            | none => simp [hpar] at h
            | some r1 =>
              rw [ih _ _ _ hpar]
              cases r1 with
              | error e => simpa [hpar] using h
              | ok c1 =>
                simp only [hpar] at h ⊢
                cases hrest : resolveMany fs n ps visited with
                | none => simp [hrest] at h
                | some r2 =>
                  rw [ih _ _ _ hrest]
                  cases r2 with
                  | error e => simpa [hrest] using h
                  | ok c2 => simpa [hrest] using h

theorem resolveMany_le {fs : FileSys} {fuel fuel' : Nat}
    {ps visited : List String} {r : Except String (List String)}
    (h : resolveMany fs fuel ps visited = some r) (hle : fuel ≤ fuel') :
    resolveMany fs fuel' ps visited = some r := by
  induction hle with
  | refl => exact h
  | step _ ih => exact resolveMany_succ _ _ _ _ ih

theorem objLookup_mem_keys {β : Type} :
    ∀ (m : List (String × β)) (k : String) (v : β),
      objLookup m k = some v → k ∈ m.map Prod.fst
  | [], _, _, h => by simp [objLookup] at h
  | (k0, v0) :: rest, k, v, h => by
    by_cases hk : k0 = k
    · simp [hk]
    · simp only [objLookup, hk, if_false] at h
      simpa using Or.inr (objLookup_mem_keys rest k v h)

theorem resolveMany_total (fs : FileSys) :
    ∀ (k : Nat) (visited : List String), unvisitedCount fs visited ≤ k →
      ∀ (ps : List String), ∃ fuel, (resolveMany fs fuel ps visited).isSome := by
  intro k
  induction k using Nat.strong_induction_on with
  | _ k ihk =>
    intro visited hk ps
    induction ps with
    | nil => exact ⟨1, by simp [resolveMany]⟩
    | cons p ps ihp =>
      obtain ⟨f2, h2i⟩ := ihp
      obtain ⟨r2, h2⟩ := Option.isSome_iff_exists.mp h2i
      by_cases hv : p ∈ visited
      · exact ⟨1, by simp [resolveMany, hv]⟩
      · cases hdoc : objLookup fs p with
        | none => exact ⟨1, by simp [resolveMany, hv, hdoc]⟩
        | some doc =>
          have hdom := objLookup_mem_keys fs p doc hdoc
          have hlt := unvisitedCount_cons_lt hdom hv
          obtain ⟨f1, h1i⟩ :=
            ihk (unvisitedCount fs (p :: visited)) (Nat.lt_of_lt_of_le hlt hk)
              (p :: visited) le_rfl doc.extendsList
          obtain ⟨r1, h1⟩ := Option.isSome_iff_exists.mp h1i
          have h1' : resolveMany fs (max f1 f2) doc.extendsList (p :: visited) = some r1 :=
            resolveMany_le h1 (Nat.le_max_left _ _)
          have h2' : resolveMany fs (max f1 f2) ps visited = some r2 :=
            resolveMany_le h2 (Nat.le_max_right _ _)
          refine ⟨max f1 f2 + 1, ?_⟩
          by_cases hx : doc.extendsList = []
          · cases r2 <;> simp [resolveMany, hv, hdoc, hx, h2']
          · cases r1 <;> cases r2 <;> simp [resolveMany, hv, hdoc, hx, h1', h2']

example (fs : FileSys) (a b : String) (da db : RuleDocument)
    (hne : a ≠ b)
    (ha : objLookup fs a = some da) (hxa : da.extendsList = [b])
    (hb : objLookup fs b = some db) (hxb : db.extendsList = [a]) :
    ∀ fuel, 3 ≤ fuel →
      resolveChain fs a fuel = some (Except.error ("Circular dependency detected: " ++ a)) := by
  intro fuel hf
  obtain ⟨k, rfl⟩ : ∃ k, fuel = k + 3 := ⟨fuel - 3, by omega⟩
  simp [resolveChain, resolveMany, ha, hb, hxa, hxb, hne, (Ne.symm hne : b ≠ a)]

example (fs : FileSys) (a b c d : String) (da db dc dd : RuleDocument)
    (hba : b ≠ a) (hca : c ≠ a) (hdb : d ≠ b) (hda : d ≠ a)
    (ha : objLookup fs a = some da) (hxa : da.extendsList = [b, c])
    (hb : objLookup fs b = some db) (hxb : db.extendsList = [d])
    (hc : objLookup fs c = some dc) (hxc : dc.extendsList = [])
    (hd : objLookup fs d = some dd) (hxd : dd.extendsList = []) :
    ∀ fuel, 4 ≤ fuel →
      resolveChain fs a fuel = some (Except.ok [d, b, c, a]) := by
  intro fuel hf
  obtain ⟨k, rfl⟩ : ∃ k, fuel = k + 4 := ⟨fuel - 4, by omega⟩
  simp [resolveChain, resolveMany, ha, hb, hc, hd, hxa, hxb, hxc, hxd, hba, hca, hdb, hda]

theorem objLookup_objInsert_self {β : Type} :
    ∀ (m : List (String × β)) (k : String) (v : β),
      objLookup (objInsert m k v) k = some v
  | [], k, v => by simp [objInsert, objLookup]
  | (k0, v0) :: rest, k, v => by
    by_cases hk : k0 = k
    · simp [objInsert, objLookup, hk]
    · simp [objInsert, objLookup, hk, objLookup_objInsert_self rest k v]

theorem objLookup_objInsert_ne {β : Type} :
    ∀ (m : List (String × β)) (k k' : String) (v : β), k ≠ k' →
      objLookup (objInsert m k v) k' = objLookup m k'
  | [], k, k', v, h => by simp [objInsert, objLookup, h]
  | (k0, v0) :: rest, k, k', v, h => by
    by_cases hk : k0 = k
    · subst hk; simp [objInsert, objLookup, h]
    · simp [objInsert, objLookup, hk, objLookup_objInsert_ne rest k k' v h]

theorem objLookup_sourcesPush_self (m : List (String × List String)) (k e : String) :
    objLookup (sourcesPush m k e) k = some (((objLookup m k).getD []) ++ [e]) := by
  unfold sourcesPush
  cases hm : objLookup m k with
  | none =>
    simp only [hm, Option.getD_none, List.nil_append]
    induction m with
    | nil => simp [objLookup]
    | cons kv rest ih =>
      by_cases hk : kv.1 = k
      · exfalso; rw [show kv = (kv.1, kv.2) from rfl] at hm; simp [objLookup, hk] at hm
      · rw [show kv = (kv.1, kv.2) from rfl] at hm ⊢
        simp only [objLookup, hk, if_false, List.cons_append] at hm ⊢
        exact ih hm
  | some l => simp [hm, objLookup_objInsert_self]

theorem objLookup_sourcesPush_ne (m : List (String × List String)) (k k' e : String)
    (h : k ≠ k') : objLookup (sourcesPush m k e) k' = objLookup m k' := by
  unfold sourcesPush
  cases hm : objLookup m k with
  | none =>
    induction m with
    | nil => simp [objLookup, h]
    | cons kv rest ih =>
      by_cases hk : kv.1 = k
      · exfalso; rw [show kv = (kv.1, kv.2) from rfl] at hm; simp [objLookup, hk] at hm
      · rw [show kv = (kv.1, kv.2) from rfl] at hm ⊢
        simp only [objLookup, hk, if_false, List.cons_append] at hm ⊢
        by_cases hk' : kv.1 = k'
        · simp [objLookup, hk']
        · simp only [objLookup, hk', if_false]; exact ih hm
  | some l => simp [hm, objLookup_objInsert_ne m k k' _ h]

/-- Facts preserved by every step of the merge: present rule ids stay
present, the head of a source list never changes, conflicts only grow. -/
def mergePreserves (st st' : Resolved) : Prop :=
  (∀ k, (objLookup st.rules k).isSome → (objLookup st'.rules k).isSome) ∧
  (∀ k x l, objLookup st.sources k = some (x :: l) →
    ∃ l2, objLookup st'.sources k = some (x :: l2)) ∧
  (∀ c, c ∈ st.conflicts → c ∈ st'.conflicts)

theorem mergePreserves_refl (st : Resolved) : mergePreserves st st :=
  ⟨fun _ h => h, fun _ _ l h => ⟨l, h⟩, fun _ h => h⟩

theorem mergePreserves_trans {s1 s2 s3 : Resolved}
    (h12 : mergePreserves s1 s2) (h23 : mergePreserves s2 s3) :
    mergePreserves s1 s3 := by
  obtain ⟨a12, b12, c12⟩ := h12
  obtain ⟨a23, b23, c23⟩ := h23
  refine ⟨fun k h => a23 k (a12 k h), fun k x l h => ?_, fun c h => c23 c (c12 c h)⟩
  obtain ⟨l2, h2⟩ := b12 k x l h
  exact b23 k x l2 h2

theorem mergePreserves_applyRuleEntry (fp : String) (st : Resolved)
    (kv : String × Rule) : mergePreserves st (applyRuleEntry fp st kv) := by
  refine ⟨fun k h => ?_, fun k x l h => ?_, fun c h => ?_⟩
  · show (objLookup (objInsert st.rules kv.1 kv.2) k).isSome
    by_cases hk : kv.1 = k
    · rw [hk, objLookup_objInsert_self]; rfl
    · rw [objLookup_objInsert_ne _ _ _ _ hk]; exact h
  · show ∃ l2, objLookup (sourcesPush st.sources kv.1 fp) k = some (x :: l2)
    by_cases hk : kv.1 = k
    · subst hk
      rw [objLookup_sourcesPush_self, h]
      exact ⟨l ++ [fp], by simp⟩
    · rw [objLookup_sourcesPush_ne _ _ _ _ hk]; exact ⟨l, h⟩
  · show c ∈ (match objLookup st.rules kv.1 with
      | some _ => st.conflicts ++ _
      | none => st.conflicts)
    cases objLookup st.rules kv.1 with
    | none => exact h
    | some _ => exact List.mem_append_left _ h

theorem mergePreserves_applyOverrideEntry (fp : String) (st : Resolved)
    (kv : String × RuleOverride) : mergePreserves st (applyOverrideEntry fp st kv) := by
  unfold applyOverrideEntry
  cases hr : objLookup st.rules kv.1 with
  | none =>
    refine ⟨fun k h => h, fun k x l h => ⟨l, h⟩, fun c h => List.mem_append_left _ h⟩
  | some r =>
    refine ⟨fun k h => ?_, fun k x l h => ?_, fun c h => h⟩
    · show (objLookup (objInsert st.rules kv.1 _) k).isSome
      by_cases hk : kv.1 = k
      · rw [hk, objLookup_objInsert_self]; rfl
      · rw [objLookup_objInsert_ne _ _ _ _ hk]; exact h
    · show ∃ l2, objLookup (sourcesPush st.sources kv.1 _) k = some (x :: l2)
      by_cases hk : kv.1 = k
      · subst hk
        rw [objLookup_sourcesPush_self, h]
        exact ⟨l ++ [fp ++ " (override)"], by simp⟩
      · rw [objLookup_sourcesPush_ne _ _ _ _ hk]; exact ⟨l, h⟩

theorem mergePreserves_foldl_rules (fp : String) :
    ∀ (l : List (String × Rule)) (st : Resolved),
      mergePreserves st (l.foldl (applyRuleEntry fp) st)
  | [], st => mergePreserves_refl st
  | kv :: rest, st => by
    simp only [List.foldl_cons]
    exact mergePreserves_trans (mergePreserves_applyRuleEntry fp st kv)
      (mergePreserves_foldl_rules fp rest _)

theorem mergePreserves_foldl_overrides (fp : String) :
    ∀ (l : List (String × RuleOverride)) (st : Resolved),
      mergePreserves st (l.foldl (applyOverrideEntry fp) st)
  | [], st => mergePreserves_refl st
  | kv :: rest, st => by
    simp only [List.foldl_cons]
    exact mergePreserves_trans (mergePreserves_applyOverrideEntry fp st kv)
      (mergePreserves_foldl_overrides fp rest _)

theorem mergePreserves_mergeDoc (st : Resolved) (fp : String) (doc : RuleDocument) :
    mergePreserves st (mergeDoc st fp doc) :=
  mergePreserves_trans (mergePreserves_foldl_rules fp doc.rules st)
    (mergePreserves_foldl_overrides fp doc.overrides _)

theorem mergePreserves_mergeChain (fs : FileSys) :
    ∀ (chain : List String) (st st' : Resolved),
      mergeChain fs chain st = Except.ok st' → mergePreserves st st'
  | [], st, st', h => by
    simp only [mergeChain, Except.ok.injEq] at h
    exact h ▸ mergePreserves_refl st
  | p :: rest, st, st', h => by
    simp only [mergeChain] at h
    cases hp : objLookup fs p with
    | none => rw [hp] at h; exact absurd h (by simp)
    | some doc =>
      rw [hp] at h
      exact mergePreserves_trans (mergePreserves_mergeDoc st p doc)
        (mergePreserves_mergeChain fs rest _ st' h)

theorem firstPass_heads (d : String) :
    ∀ (rs : List (String × Rule)) (st : Resolved),
      (∀ k x l, objLookup st.sources k = some (x :: l) → x = d) →
      (∀ k x l, objLookup (rs.foldl (applyRuleEntry d) st).sources k = some (x :: l) → x = d) ∧
      (∀ kv, kv ∈ rs →
        (objLookup (rs.foldl (applyRuleEntry d) st).rules kv.1).isSome ∧
        ∃ l, objLookup (rs.foldl (applyRuleEntry d) st).sources kv.1 = some (d :: l))
  | [], st, hInv => ⟨hInv, by simp⟩
  | (k0, v0) :: rest, st, hInv => by
    simp only [List.foldl_cons]
    have hpush : ∃ l, objLookup (applyRuleEntry d st (k0, v0)).sources k0 = some (d :: l) := by
      show ∃ l, objLookup (sourcesPush st.sources k0 d) k0 = some (d :: l)
      rw [objLookup_sourcesPush_self]
      cases hold : objLookup st.sources k0 with
      | none => exact ⟨[], by simp⟩
      | some ll =>
        cases ll with
        | nil => exact ⟨[], by simp⟩
        | cons x t =>
          have hx := hInv k0 x t hold
          exact ⟨t ++ [d], by simp [hx]⟩
    have hInv1 : ∀ k x l, objLookup (applyRuleEntry d st (k0, v0)).sources k = some (x :: l) → x = d := by
      intro k x l h
      by_cases hk : k0 = k
      · subst hk
        obtain ⟨l2, hl2⟩ := hpush
        rw [hl2] at h
        exact ((List.cons.injEq _ _ _ _ ▸ Option.some.injEq _ _ ▸ h :
          d = x ∧ l2 = l).1).symm
      · show x = d
        apply hInv k x l
        have := objLookup_sourcesPush_ne st.sources k0 k d hk
        show _ = _
        rw [← this]; exact h
    obtain ⟨ihInv, ihMem⟩ := firstPass_heads d rest (applyRuleEntry d st (k0, v0)) hInv1
    refine ⟨ihInv, fun kv hkv => ?_⟩
    rcases List.mem_cons.mp hkv with h | h
    · subst h
      have hpres := mergePreserves_foldl_rules d rest (applyRuleEntry d st (k0, v0))
      constructor
      · apply hpres.1
        show (objLookup (objInsert st.rules k0 v0) k0).isSome
        rw [objLookup_objInsert_self]; rfl
      · obtain ⟨l, hl⟩ := hpush
        obtain ⟨l2, hl2⟩ := hpres.2.1 k0 d l hl
        exact ⟨l2, hl2⟩
    · exact ihMem kv h

theorem secondPass_conflicts (d : String) :
    ∀ (rs : List (String × Rule)) (st : Resolved),
      (∀ kv, kv ∈ rs → (objLookup st.rules kv.1).isSome ∧
        ∃ l, objLookup st.sources kv.1 = some (d :: l)) →
      ∀ kv, kv ∈ rs →
        ({ ruleId := kv.1, conflict := "Rule redefined in " ++ d,
           sources := [d, d] } : Conflict) ∈ (rs.foldl (applyRuleEntry d) st).conflicts
  | [], st, h, kv, hkv => by simp at hkv
  | (k0, v0) :: rest, st, h, kv, hkv => by
    simp only [List.foldl_cons]
    have hpres := mergePreserves_foldl_rules d rest (applyRuleEntry d st (k0, v0))
    rcases List.mem_cons.mp hkv with heq | hmem
    · subst heq
      obtain ⟨hsome, l, hl⟩ := h (k0, v0) (List.mem_cons_self _ _)
      apply hpres.2.2
      show _ ∈ (applyRuleEntry d st (k0, v0)).conflicts
      unfold applyRuleEntry
      obtain ⟨r, hr⟩ := Option.isSome_iff_exists.mp hsome
      simp only [hr, hl]
      exact List.mem_append_right _ (by simp)
    · apply secondPass_conflicts d rest (applyRuleEntry d st (k0, v0)) ?_ kv hmem
      intro kv2 hkv2
      obtain ⟨hsome, l, hl⟩ := h kv2 (List.mem_cons_of_mem _ hkv2)
      have hstep := mergePreserves_applyRuleEntry d st (k0, v0)
      exact ⟨hstep.1 _ hsome, hstep.2.1 _ _ _ hl⟩

theorem mergeChain_append (fs : FileSys) :
    ∀ (l1 l2 : List String) (st : Resolved),
      mergeChain fs (l1 ++ l2) st =
        (match mergeChain fs l1 st with
         | Except.ok st' => mergeChain fs l2 st'
         | Except.error e => Except.error e)
  | [], l2, st => by simp [mergeChain]
  | p :: rest, l2, st => by
    simp only [List.cons_append, mergeChain]
    cases objLookup fs p with
    | none => simp
    | some doc => simp [mergeChain_append fs rest l2 (mergeDoc st p doc)]

theorem isPrefixChars_append (pat l1 l2 : List Char)
    (h : isPrefixChars pat l1 = true) : isPrefixChars pat (l1 ++ l2) = true := by
  induction pat generalizing l1 with
  | nil => rfl
  | cons a as ih =>
    cases l1 with
    | nil => simp [isPrefixChars] at h
    | cons b bs =>
      simp only [isPrefixChars, Bool.and_eq_true] at h
      simp only [List.cons_append, isPrefixChars, Bool.and_eq_true]
      exact ⟨h.1, ih bs h.2⟩

theorem containsAux_append_left (pat l1 l2 : List Char)
    (h : containsAux pat l1 = true) : containsAux pat (l1 ++ l2) = true := by
  induction l1 with
  | nil =>
    cases pat with
    | nil => cases l2 with
      | nil => rfl
      | cons c cs => simp [containsAux, isPrefixChars]
    | cons a as => simp [containsAux, isPrefixChars] at h
  | cons b bs ih =>
    simp only [containsAux, Bool.or_eq_true] at h
    simp only [List.cons_append, containsAux, Bool.or_eq_true]
    rcases h with h | h
    · exact Or.inl (isPrefixChars_append pat (b :: bs) l2 h)
    · exact Or.inr (ih h)

theorem strContains_append_left (s t pat : String)
    (h : strContains s pat = true) : strContains (s ++ t) pat = true := by
  unfold strContains at h ⊢
  rw [String.data_append]
  exact containsAux_append_left pat.data s.data t.data h

theorem mem_missingFieldErrors_name :
    ∀ (rules : List (String × Rule)) (k : String) (r : Rule),
      (k, r) ∈ rules → r.name = "" →
      ("Rule " ++ k ++ " missing required field: name") ∈ missingFieldErrors rules
  | (k0, r0) :: rest, k, r, hmem, hname => by
    simp only [missingFieldErrors]
    rcases List.mem_cons.mp hmem with heq | hmem2
    · obtain ⟨hk, hr⟩ := Prod.mk.injEq _ _ _ _ ▸ heq
      subst hk; subst hr
      exact List.mem_append_left _ (List.mem_append_left _
        (List.mem_append_left _ (by simp [hname])))
    · exact List.mem_append_right _ (mem_missingFieldErrors_name rest k r hmem2 hname)

theorem mem_missingFieldErrors_description :
    ∀ (rules : List (String × Rule)) (k : String) (r : Rule),
      (k, r) ∈ rules → r.description = "" →
      ("Rule " ++ k ++ " missing required field: description") ∈ missingFieldErrors rules
  | (k0, r0) :: rest, k, r, hmem, hd => by
    simp only [missingFieldErrors]
    rcases List.mem_cons.mp hmem with heq | hmem2
    · obtain ⟨hk, hr⟩ := Prod.mk.injEq _ _ _ _ ▸ heq
      subst hk; subst hr
      refine List.mem_append_left _ ?_
      exact List.mem_append_left _ (List.mem_append_right _ (by simp [hd]))
    · exact List.mem_append_right _ (mem_missingFieldErrors_description rest k r hmem2 hd)

theorem mem_missingFieldErrors_severity :
    ∀ (rules : List (String × Rule)) (k : String) (r : Rule),
      (k, r) ∈ rules → r.severity = "" →
      ("Rule " ++ k ++ " missing required field: severity") ∈ missingFieldErrors rules
  | (k0, r0) :: rest, k, r, hmem, hs => by
    simp only [missingFieldErrors]
    rcases List.mem_cons.mp hmem with heq | hmem2
    · obtain ⟨hk, hr⟩ := Prod.mk.injEq _ _ _ _ ▸ heq
      subst hk; subst hr
      refine List.mem_append_left _ ?_
      exact List.mem_append_right _ (by simp [hs])
    · exact List.mem_append_right _ (mem_missingFieldErrors_severity rest k r hmem2 hs)

theorem mem_vcRuleErrors_invalid_severity :
    ∀ (rules : List (String × Rule)) (k : String) (r : Rule),
      (k, r) ∈ rules → r.severity ≠ "" → r.severity ∉ allowedSeverities →
      ("Rule " ++ k ++ ": invalid severity \x27" ++ r.severity ++
        "\x27 (must be CRITICAL, HIGH, MEDIUM, or LOW)") ∈ vcRuleErrors rules
  | (k0, r0) :: rest, k, r, hmem, hne, hnl => by
    simp only [vcRuleErrors]
    rcases List.mem_cons.mp hmem with heq | hmem2
    · obtain ⟨hk, hr⟩ := Prod.mk.injEq _ _ _ _ ▸ heq
      subst hk; subst hr
      refine List.mem_append_left _ (List.mem_append_right _ ?_)
      simp [hne, hnl]
    · exact List.mem_append_right _
        (mem_vcRuleErrors_invalid_severity rest k r hmem2 hne hnl)

theorem resolveChain_ok_lookup {fs : FileSys} {p : String} {fuel : Nat}
    {chain : List String}
    (h : resolveChain fs p fuel = some (Except.ok chain)) :
    (objLookup fs p).isSome := by
  unfold resolveChain at h
  cases fuel with
  | zero => simp [resolveMany] at h
  | succ n =>
    cases hp : objLookup fs p with
    | none => simp [resolveMany, hp] at h
    | some doc => rfl

theorem objLookup_mem {β : Type} :
    ∀ (m : List (String × β)) (k : String) (v : β),
      objLookup m k = some v → (k, v) ∈ m
  | (k0, v0) :: rest, k, v, h => by
    by_cases hk : k0 = k
    · subst hk
      have hv : v0 = v := by simpa [objLookup] using h
      rw [← hv]; exact List.mem_cons_self _ _
    · simp only [objLookup, hk, if_false] at h
      exact List.mem_cons_of_mem _ (objLookup_mem rest k v h)

theorem mem_objInsert {β : Type} :
    ∀ (m : List (String × β)) (k : String) (v : β) (kv : String × β),
      kv ∈ objInsert m k v → kv ∈ m ∨ kv = (k, v)
  | [], k, v, kv, h => by
    simp only [objInsert, List.mem_singleton] at h
    exact Or.inr h
  | (k0, v0) :: rest, k, v, kv, h => by
    by_cases hk : k0 = k
    · subst hk
      have h2 : kv = (k0, v) ∨ kv ∈ rest := by simpa [objInsert] using h
      rcases h2 with h2 | h2
      · exact Or.inr h2
      · exact Or.inl (List.mem_cons_of_mem _ h2)
    · simp only [objInsert, hk, if_false, List.mem_cons] at h
      rcases h with h | h
      · exact Or.inl (by simp [h])
      · rcases mem_objInsert rest k v kv h with h2 | h2
        · exact Or.inl (List.mem_cons_of_mem _ h2)
        · exact Or.inr h2

/-- The cap invariant of the session store: every entry holds at most
`MAX_RULES_PER_SESSION` rule strings. -/
def capBound (m : ConstitutionMap) : Prop :=
  ∀ kv, kv ∈ m → kv.2.rules.length ≤ MAX_RULES_PER_SESSION

theorem capBound_initSession {env : InitEnv} {now : Nat} {m : ConstitutionMap}
    {sid : String} (henv : env.fileRules.length ≤ MAX_RULES_PER_SESSION)
    (hm : capBound m) : capBound (initSessionConstitution env now m sid) := by
  unfold initSessionConstitution
  cases objLookup m sid with
  | some e => exact hm
  | none =>
    by_cases hp : env.pathFound
    · simp only [hp, if_true]
      intro kv hkv
      rcases mem_objInsert _ _ _ _ hkv with h | h
      · exact hm kv h
      · subst h; exact henv
    · simp only [hp, if_false]
      intro kv hkv
      rcases mem_objInsert _ _ _ _ hkv with h | h
      · exact hm kv h
      · subst h; exact Nat.zero_le _

theorem capBound_update {env : InitEnv} {now : Nat} {m : ConstitutionMap}
    {sid rule : String} (henv : env.fileRules.length ≤ MAX_RULES_PER_SESSION)
    (hm : capBound m) : capBound (updateConstitution env now m sid rule) := by
  unfold updateConstitution
  by_cases hg : sid = "" ∨ rule = ""
  · simp only [hg, if_true]; exact hm
  · simp only [hg, if_false]
    have hm1 : capBound (initSessionConstitution env now m sid) :=
      capBound_initSession henv hm
    cases he : objLookup (initSessionConstitution env now m sid) sid with
    | none => simp only [he]; exact hm1
    | some e =>
      simp only [he]
      have hel : e.rules.length ≤ MAX_RULES_PER_SESSION :=
        hm1 _ (objLookup_mem _ _ _ he)
      intro kv hkv
      rcases mem_objInsert _ _ _ _ hkv with h | h
      · exact hm1 kv h
      · subst h
        show (if MAX_RULES_PER_SESSION ≤ e.rules.length then
            e.rules.drop 1 ++ [rule] else e.rules ++ [rule]).length ≤
          MAX_RULES_PER_SESSION
        by_cases hfull : MAX_RULES_PER_SESSION ≤ e.rules.length
        · rw [if_pos hfull, List.length_append, List.length_drop]
          simp only [List.length_singleton]
          simp only [MAX_RULES_PER_SESSION] at hel hfull ⊢
          omega
        · rw [if_neg hfull, List.length_append]
          simp only [List.length_singleton]
          simp only [MAX_RULES_PER_SESSION] at hfull ⊢
          omega

theorem capBound_reset {now : Nat} {m : ConstitutionMap} {sid : String}
    {rules : List String} (hm : capBound m) :
    capBound (resetConstitution now m sid rules) := by
  unfold resetConstitution
  by_cases hg : sid = ""
  · simp only [hg, if_pos rfl]; exact hm
  · simp only [hg, if_false]
    intro kv hkv
    rcases mem_objInsert _ _ _ _ hkv with h | h
    · exact hm kv h
    · subst h
      simp only [List.length_take]
      exact Nat.min_le_left _ _

theorem capBound_get {env : InitEnv} {now : Nat} {m : ConstitutionMap}
    {sid : String} (henv : env.fileRules.length ≤ MAX_RULES_PER_SESSION)
    (hm : capBound m) : capBound (getConstitution env now m sid).2 := by
  unfold getConstitution
  have hm1 : capBound (initSessionConstitution env now m sid) :=
    capBound_initSession henv hm
  cases he : objLookup (initSessionConstitution env now m sid) sid with
  | none => simp only [he]; exact hm1
  | some e =>
    simp only [he]
    intro kv hkv
    rcases mem_objInsert _ _ _ _ hkv with h | h
    · exact hm1 kv h
    · subst h
      have hb := hm1 (sid, e) (objLookup_mem _ _ _ he)
      simpa using hb

theorem capBound_cleanup {now : Nat} {m : ConstitutionMap} (hm : capBound m) :
    capBound (cleanupStore now m) := by
  intro kv hkv
  exact hm kv (List.mem_of_mem_filter hkv)

/-- The environment bound needed by the amended cap invariant: any
operation that can lazily initialize an entry must observe a file-rule
list within the capacity. -/
def opEnvBounded : StoreOp → Prop
  | StoreOp.opInit env _ => env.fileRules.length ≤ MAX_RULES_PER_SESSION
  | StoreOp.opGet env _ => env.fileRules.length ≤ MAX_RULES_PER_SESSION
  | StoreOp.opAppend env _ _ => env.fileRules.length ≤ MAX_RULES_PER_SESSION
  | StoreOp.opReset _ _ => True
  | StoreOp.opSweep => True

theorem capBound_runOps :
    ∀ (ops : List (Nat × StoreOp)) (m : ConstitutionMap),
      (∀ op, op ∈ ops → opEnvBounded op.2) → capBound m →
      capBound (runOps ops m)
  | [], m, _, hm => hm
  | (now, op) :: rest, m, hops, hm => by
    have hstep : capBound (applyOp now m op) := by
      have hop := hops (now, op) (List.mem_cons_self _ _)
      cases op with
      | opInit env sid => exact capBound_initSession hop hm
      | opGet env sid => exact capBound_get hop hm
      | opAppend env sid r => exact capBound_update hop hm
      | opReset sid rs => exact capBound_reset hm
      | opSweep => exact capBound_cleanup hm
    exact capBound_runOps rest _ (fun o ho => hops o (List.mem_cons_of_mem _ ho)) hstep

/-- The pure list transformer of one `updateConstitution` append:
`shift` once at (or above) capacity, then `push`. -/
def listStep (cur : List String) (r : String) : List String :=
  if MAX_RULES_PER_SESSION ≤ cur.length then cur.drop 1 ++ [r] else cur ++ [r]

theorem updateConstitution_eq {env : InitEnv} {now : Nat} {m : ConstitutionMap}
    {sid rule : String} {e : ConstitutionEntry}
    (hsid : sid ≠ "") (hrule : rule ≠ "") (he : objLookup m sid = some e) :
    updateConstitution env now m sid rule =
      objInsert m sid { e with rules := listStep e.rules rule, updated := now } := by
  unfold updateConstitution
  have hg : ¬(sid = "" ∨ rule = "") := by simp [hsid, hrule]
  rw [if_neg hg]
  have hinit : initSessionConstitution env now m sid = m := by
    unfold initSessionConstitution
    rw [he]
  rw [hinit]
  simp only [he, listStep]

theorem foldl_update_lookup {env : InitEnv} {now : Nat} {sid : String} :
    ∀ (rs : List String) (m : ConstitutionMap) (cur : List String) (fl : Bool),
      sid ≠ "" → (∀ r, r ∈ rs → r ≠ "") →
      objLookup m sid = some { rules := cur, fileLoaded := fl, updated := now } →
      objLookup (rs.foldl (fun acc r => updateConstitution env now acc sid r) m) sid =
        some { rules := rs.foldl listStep cur, fileLoaded := fl, updated := now }
  | [], m, cur, fl, _, _, he => by simpa using he
  | r :: rest, m, cur, fl, hsid, hrs, he => by
    simp only [List.foldl_cons]
    rw [updateConstitution_eq hsid (hrs r (List.mem_cons_self _ _)) he]
    exact foldl_update_lookup rest _ (listStep cur r) fl hsid
      (fun x hx => hrs x (List.mem_cons_of_mem _ hx))
      (objLookup_objInsert_self _ _ _)

theorem foldl_listStep_window :
    ∀ (rs cur : List String), cur.length ≤ MAX_RULES_PER_SESSION →
      rs.foldl listStep cur =
        (cur ++ rs).drop (cur.length + rs.length - MAX_RULES_PER_SESSION)
  | [], cur, hcur => by
    simp only [List.foldl_nil, List.append_nil, List.length_nil, Nat.add_zero]
    rw [Nat.sub_eq_zero_of_le hcur, List.drop_zero]
  | r :: rest, cur, hcur => by
    simp only [List.foldl_cons]
    by_cases hfull : MAX_RULES_PER_SESSION ≤ cur.length
    · have hlen : cur.length = MAX_RULES_PER_SESSION := Nat.le_antisymm hcur hfull
      have hpos : 0 < MAX_RULES_PER_SESSION := by
        simp [MAX_RULES_PER_SESSION]
      have hstep : listStep cur r = cur.drop 1 ++ [r] := by
        unfold listStep; rw [if_pos hfull]
      rw [hstep]
      have hlen2 : (cur.drop 1 ++ [r]).length = MAX_RULES_PER_SESSION := by
        simp only [List.length_append, List.length_drop, List.length_singleton]
        omega
      rw [foldl_listStep_window rest _ (le_of_eq hlen2), hlen2]
      have hassoc : cur.drop 1 ++ [r] ++ rest = (cur ++ r :: rest).drop 1 := by
        rw [List.drop_append_of_le_length (by omega), List.append_assoc]
        rfl
      rw [hassoc, List.drop_drop]
      congr 1
      simp only [List.length_cons, hlen]
      simp only [MAX_RULES_PER_SESSION] at hpos ⊢
      omega
    · have hstep : listStep cur r = cur ++ [r] := by
        unfold listStep; rw [if_neg hfull]
      rw [hstep]
      have hle : (cur ++ [r]).length ≤ MAX_RULES_PER_SESSION := by
        simp only [List.length_append, List.length_singleton]
        simp only [MAX_RULES_PER_SESSION] at hfull ⊢
        omega
      rw [foldl_listStep_window rest _ hle]
      have hlist : (cur ++ [r]) ++ rest = cur ++ r :: rest := by
        rw [List.append_assoc]; rfl
      have hc : (cur ++ [r]).length + rest.length =
          cur.length + (r :: rest).length := by
        rw [List.length_append, List.length_singleton, List.length_cons]
        omega
      rw [hlist, hc]

theorem objLookup_eq_none_of_not_mem {β : Type} {m : List (String × β)} {k : String}
    (h : k ∉ m.map Prod.fst) : objLookup m k = none := by
  cases hl : objLookup m k with
  | none => rfl
  | some v => exact absurd (objLookup_mem_keys m k v hl) h

theorem objLookup_filter_none {β : Type} (pred : String × β → Bool) :
    ∀ (m : List (String × β)) (k : String),
      objLookup m k = none → objLookup (m.filter pred) k = none
  | [], k, _ => rfl
  | (k0, v0) :: rest, k, h => by
    by_cases hk : k0 = k
    · subst hk; simp [objLookup] at h
    · simp only [objLookup, hk, if_false] at h
      simp only [List.filter_cons]
      by_cases hp : pred (k0, v0)
      · simp only [hp, if_true, objLookup, hk, if_false]
        exact objLookup_filter_none pred rest k h
      · simp only [hp, if_false]
        exact objLookup_filter_none pred rest k h

theorem objLookup_cleanupStore {now : Nat} :
    ∀ (m : ConstitutionMap) (sid : String) (e : ConstitutionEntry),
      (m.map Prod.fst).Nodup → objLookup m sid = some e →
      objLookup (cleanupStore now m) sid =
        if now - e.updated ≤ SESSION_TTL_MS then some e else none
  | (k0, v0) :: rest, sid, e, hnd, he => by
    have hnd2 : (rest.map Prod.fst).Nodup := (List.nodup_cons.mp (by simpa using hnd)).2
    have hk0 : k0 ∉ rest.map Prod.fst := (List.nodup_cons.mp (by simpa using hnd)).1
    by_cases hk : k0 = sid
    · subst hk
      have hv : v0 = e := by simpa [objLookup] using he
      subst hv
      unfold cleanupStore
      simp only [List.filter_cons]
      by_cases hkeep : now - v0.updated ≤ SESSION_TTL_MS
      · simp only [decide_eq_true_eq, hkeep, if_true, objLookup, if_pos rfl]
      · simp only [decide_eq_true_eq, hkeep, if_false]
        have hnone : objLookup rest k0 = none := objLookup_eq_none_of_not_mem hk0
        exact (objLookup_filter_none _ rest k0 hnone)
    · simp only [objLookup, hk, if_false] at he
      have ih := @objLookup_cleanupStore now rest sid e hnd2 he
      unfold cleanupStore at ih ⊢
      simp only [List.filter_cons]
      by_cases hkeep : now - v0.updated ≤ SESSION_TTL_MS
      · simp only [decide_eq_true_eq, hkeep, if_true, objLookup, hk, if_false]
        exact ih
      · simp only [decide_eq_true_eq, hkeep, if_false]
        exact ih

/-- A leaf document with no parents. -/
def mkLeafDoc (rs : List (String × Rule)) : RuleDocument :=
  { version := "1.0.0", extendsList := [], rules := rs, overrides := [] }

/-- A document with parents, rules and overrides. -/
def mkDoc (es : List String) (rs : List (String × Rule))
    (ov : List (String × RuleOverride)) : RuleDocument :=
  { version := "1.0.0", extendsList := es, rules := rs, overrides := ov }

/-- A well-formed sample rule. -/
def exRule : Rule :=
  { name := "n", description := "desc", category := "cat", severity := "HIGH",
    enabled := true, rationale := "", examples := none, validation := none }

/-- Concrete A/B/C/D chain: A extends [B, C], B extends [D]. -/
def exC1fs : FileSys :=
  [("a", mkDoc ["b", "c"] [] []), ("b", mkDoc ["d"] [] []),
   ("c", mkLeafDoc []), ("d", mkLeafDoc [])]

/-- Concrete two-document cycle. -/
def exCycFs : FileSys :=
  [("a", mkDoc ["b"] [] []), ("b", mkDoc ["a"] [] [])]

/-- B's redefinition of `r1`. -/
def exRuleB : Rule := { exRule with name := "redefined" }

/-- A sample partial override. -/
def exOv : RuleOverride :=
  { name := some "patched", description := none, category := none,
    severity := some "LOW", enabled := none, rationale := none,
    examples := none, validation := none }

/-- Concrete chain for the override-after-redefinition law. -/
def exC3fs : FileSys :=
  [("A.json", mkLeafDoc [("r1", exRule)]),
   ("B.json", mkDoc ["A.json"] [("r1", exRuleB)] [("r1", exOv)])]

/-- Concrete chain with a dangling override of `r9` in `child.json`. -/
def exC4fs : FileSys :=
  [("base.json", mkLeafDoc [("r1", exRule)]),
   ("child.json", mkDoc ["base.json"] [] [("r9", exOv)])]

def exC4stPre : Resolved :=
  ⟨[("r1", exRule)], [("r1", ["base.json"])], []⟩

def exC4st : Resolved :=
  ⟨[("r1", exRule)], [("r1", ["base.json"])],
   [⟨"r9", "Override for non-existent rule in child.json", ["child.json"]⟩]⟩

def exC4v : Validation :=
  ⟨false, ["Override for non-existent rule in child.json"], []⟩

/-- Concrete merged set exercising the effective-rule selector. -/
def exEffFs : FileSys :=
  [("e.json", mkLeafDoc
    [("r1", { exRule with severity := "LOW", name := "L1" }),
     ("r2", { exRule with severity := "CRITICAL", name := "C1" }),
     ("r3", { exRule with severity := "LOW", name := "L2" }),
     ("r4", { exRule with severity := "HIGH", name := "off", enabled := false }),
     ("r5", { exRule with severity := "HIGH", name := "H1" })])]

def exEffSt : Resolved :=
  ⟨[("r1", { exRule with severity := "LOW", name := "L1" }),
    ("r2", { exRule with severity := "CRITICAL", name := "C1" }),
    ("r3", { exRule with severity := "LOW", name := "L2" }),
    ("r4", { exRule with severity := "HIGH", name := "off", enabled := false }),
    ("r5", { exRule with severity := "HIGH", name := "H1" })],
   [("r1", ["e.json"]), ("r2", ["e.json"]), ("r3", ["e.json"]),
    ("r4", ["e.json"]), ("r5", ["e.json"])], []⟩

def exEffList : List Rule :=
  [{ exRule with severity := "CRITICAL", name := "C1" },
   { exRule with severity := "HIGH", name := "H1" },
   { exRule with severity := "LOW", name := "L1" },
   { exRule with severity := "LOW", name := "L2" }]

/-- A rule with a non-empty severity outside the four literals. -/
def exBogusRule : Rule := { exRule with severity := "BOGUS" }

def exC6fs : FileSys := [("root.json", mkLeafDoc [("r1", exBogusRule)])]

def exC6st : Resolved :=
  ⟨[("r1", exBogusRule)], [("r1", ["root.json"])], []⟩

def exC6v : Validation := ⟨true, [], []⟩

def exC6w : Validation :=
  ⟨false,
   ["Rule r1: invalid severity \x27BOGUS\x27 (must be CRITICAL, HIGH, MEDIUM, or LOW)"],
   []⟩

/-- Concrete diamond: A extends [B, C], B and C both extend D. -/
def exDiaFs : FileSys :=
  [("a", mkDoc ["b", "c"] [] []), ("b", mkDoc ["d"] [] []),
   ("c", mkDoc ["d"] [] []), ("d", mkLeafDoc [("r1", exRule)])]

/-! ## Lemmas -/

/-- C1: for a document `a` extending `[b, c]` where `b` extends `[d]` and `c`,
`d` are leaves (all files present, no cycles), the resolved inheritance chain
is `[d, b, c, a]`: each parent's full transitive chain is concatenated in
declared order and the document itself is appended last.  Stated for every
file system containing such a family and every sufficient fuel. -/
theorem resolveChain_two_parent_order (fs : FileSys) (a b c d : String)
    (da db dc dd : RuleDocument)
    (hba : b ≠ a) (hca : c ≠ a) (hdb : d ≠ b) (hda : d ≠ a)
    (ha : objLookup fs a = some da) (hxa : da.extendsList = [b, c])
    (hb : objLookup fs b = some db) (hxb : db.extendsList = [d])
    (hc : objLookup fs c = some dc) (hxc : dc.extendsList = [])
    (hd : objLookup fs d = some dd) (hxd : dd.extendsList = []) :
    ∀ fuel, 4 ≤ fuel →
      resolveChain fs a fuel = some (Except.ok [d, b, c, a]) := by
  intro fuel hf
  obtain ⟨k, rfl⟩ : ∃ k, fuel = k + 4 := ⟨fuel - 4, by omega⟩
  simp [resolveChain, resolveMany, ha, hb, hc, hd, hxa, hxb, hxc, hxd, hba, hca, hdb, hda]

/-- C1 witness: the chain law evaluated on a concrete four-document file
system. -/
theorem resolveChain_two_parent_order_witness :
    ("b" : String) ≠ "a" ∧
    resolveChain exC1fs "a" 4 = some (Except.ok ["d", "b", "c", "a"]) :=
  ⟨by decide,
   resolveChain_two_parent_order exC1fs "a" "b" "c" "d" _ _ _ _
     (by decide) (by decide) (by decide) (by decide)
     rfl rfl rfl rfl rfl rfl rfl rfl 4 (by omega)⟩

/-- C2: chain resolution always terminates — on every file system and start
path the fuel-indexed resolver stabilises on a fixed result, so a cyclic
`extends` graph cannot make it recurse indefinitely — and on the canonical
cycle (`a` extends `b`, `b` extends `a`) it fails with a structural error
naming the offending path.  The third conjunct records that every top-level
call starts from a fresh empty visited set, so a resolution after a file edit
is not poisoned by earlier calls. -/
theorem resolveChain_cycle_detection :
    (∀ (fs : FileSys) (p : String), ∃ (fuel0 : Nat) (r : Except String (List String)),
      ∀ fuel, fuel0 ≤ fuel → resolveChain fs p fuel = some r) ∧
    (∀ (fs : FileSys) (a b : String) (da db : RuleDocument), a ≠ b →
      objLookup fs a = some da → da.extendsList = [b] →
      objLookup fs b = some db → db.extendsList = [a] →
      ∀ fuel, 3 ≤ fuel →
        resolveChain fs a fuel =
          some (Except.error ("Circular dependency detected: " ++ a))) ∧
    (∀ (fs : FileSys) (p : String) (fuel : Nat),
      resolveChain fs p fuel = resolveMany fs fuel [p] []) := by
  refine ⟨fun fs p => ?_, fun fs a b da db hne ha hxa hb hxb fuel hf => ?_,
    fun fs p fuel => rfl⟩
  · obtain ⟨fuel0, h0⟩ :=
      resolveMany_total fs (unvisitedCount fs []) [] le_rfl [p]
    obtain ⟨r, hr⟩ := Option.isSome_iff_exists.mp h0
    exact ⟨fuel0, r, fun fuel hf => resolveMany_le hr hf⟩
  · obtain ⟨k, rfl⟩ : ∃ k, fuel = k + 3 := ⟨fuel - 3, by omega⟩
    simp [resolveChain, resolveMany, ha, hb, hxa, hxb, hne, (Ne.symm hne : b ≠ a)]

/-- C2 witness: the cycle error evaluated on a concrete two-document cycle. -/
theorem resolveChain_cycle_detection_witness :
    ("a" : String) ≠ "b" ∧
    resolveChain exCycFs "a" 3 =
      some (Except.error ("Circular dependency detected: " ++ "a")) :=
  ⟨by decide,
   resolveChain_cycle_detection.2.1 exCycFs "a" "b" _ _ (by decide)
     rfl rfl rfl rfl 3 (by omega)⟩

/-- C3: when document `a` defines `r1` and its child `b` both redefines `r1`
in `rules` and lists `r1` in `overrides`, the merged result for `r1` is `b`'s
full redefinition shallow-patched by `b`'s override fields (a document's rules
are merged before that same document's overrides are applied), and a
redefinition conflict is recorded for `r1` citing `a`'s file and `b`'s file. -/
theorem resolveRules_override_after_redefinition (fs : FileSys)
    (a b r1 : String) (ra rb : Rule) (ov : RuleOverride)
    (da db : RuleDocument) (hab : a ≠ b)
    (ha : objLookup fs a = some da)
    (hda : da = mkLeafDoc [(r1, ra)])
    (hb : objLookup fs b = some db)
    (hdb : db = mkDoc [a] [(r1, rb)] [(r1, ov)]) :
    ∀ fuel, 3 ≤ fuel →
      resolveRules fs b fuel =
        some (Except.ok
          { rules := [(r1, applyOverride rb ov)],
            sources := [(r1, [a, b, b ++ " (override)"])],
            conflicts :=
              [{ ruleId := r1, conflict := "Rule redefined in " ++ b,
                 sources := [a, b] }] }) := by
  intro fuel hf
  obtain ⟨k, rfl⟩ : ∃ k, fuel = k + 3 := ⟨fuel - 3, by omega⟩
  subst hda; subst hdb
  have hchain : resolveChain fs b (k + 3) = some (Except.ok [a, b]) := by
    simp [resolveChain, resolveMany, ha, hb, hab, (Ne.symm hab : ¬b = a), mkDoc, mkLeafDoc]
  unfold resolveRules
  rw [hchain]
  simp [mergeChain, ha, hb, mkDoc, mkLeafDoc, mergeDoc, applyRuleEntry,
    applyOverrideEntry, objLookup, objInsert, sourcesPush, emptyResolved]

/-- C10: in a diamond (`a` extends `[b, c]`, both `b` and `c` extend `d`,
all files present), resolution succeeds without a cycle error, the chain
contains `d` once per path (`[d, b, d, c, a]`), and the merge records a
redefinition conflict for every rule of `d` citing `d`'s own file as both
the first and the current source. -/
theorem resolveRules_diamond_duplicate_merge (fs : FileSys) (a b c d : String)
    (da db dc dd : RuleDocument)
    (hba : b ≠ a) (hca : c ≠ a) (hdb : d ≠ b) (hda : d ≠ a) (hdc : d ≠ c)
    (ha : objLookup fs a = some da) (hxa : da.extendsList = [b, c])
    (hb : objLookup fs b = some db) (hxb : db.extendsList = [d])
    (hc : objLookup fs c = some dc) (hxc : dc.extendsList = [d])
    (hd : objLookup fs d = some dd) (hxd : dd.extendsList = []) :
    ∀ fuel, 5 ≤ fuel →
      resolveChain fs a fuel = some (Except.ok [d, b, d, c, a]) ∧
      ∃ st, resolveRules fs a fuel = some (Except.ok st) ∧
        ∀ kv, kv ∈ dd.rules →
          ({ ruleId := kv.1, conflict := "Rule redefined in " ++ d,
             sources := [d, d] } : Conflict) ∈ st.conflicts := by
  intro fuel hf
  obtain ⟨k, rfl⟩ : ∃ k, fuel = k + 5 := ⟨fuel - 5, by omega⟩
  have hchain : resolveChain fs a (k + 5) = some (Except.ok [d, b, d, c, a]) := by
    simp [resolveChain, resolveMany, ha, hb, hc, hd, hxa, hxb, hxc, hxd,
      hba, hca, hdb, hda, hdc]
  refine ⟨hchain, ?_⟩
  have hres : resolveRules fs a (k + 5) =
      some (mergeChain fs [d, b, d, c, a] emptyResolved) := by
    unfold resolveRules
    rw [hchain]
  have hmc : mergeChain fs [d, b, d, c, a] emptyResolved =
      Except.ok (mergeDoc (mergeDoc (mergeDoc (mergeDoc
        (mergeDoc emptyResolved d dd) b db) d dd) c dc) a da) := by
    simp [mergeChain, hd, hb, hc, ha]
  refine ⟨_, by rw [hres, hmc], ?_⟩
  intro kv hkv
  -- facts after the first pass over D's rules
  have hfp := firstPass_heads d dd.rules emptyResolved
    (by intro k2 x l h2; simp [emptyResolved, objLookup] at h2)
  obtain ⟨hsome0, l0, hl0⟩ := hfp.2 kv hkv
  -- carry them through D's overrides and document B
  have p01 := mergePreserves_foldl_overrides d dd.overrides
    (dd.rules.foldl (applyRuleEntry d) emptyResolved)
  have p12 := mergePreserves_mergeDoc (mergeDoc emptyResolved d dd) b db
  have hsome1 : (objLookup (mergeDoc (mergeDoc emptyResolved d dd) b db).rules kv.1).isSome :=
    p12.1 _ (p01.1 _ hsome0)
  obtain ⟨l1, hl1⟩ := p01.2.1 _ _ _ hl0
  obtain ⟨l2, hl2⟩ := p12.2.1 _ _ _ hl1
  -- the second pass over D's rules records the conflict
  have hsp := secondPass_conflicts d dd.rules
    (mergeDoc (mergeDoc emptyResolved d dd) b db) ?_ kv hkv
  · have p23 := mergePreserves_foldl_overrides d dd.overrides
      (dd.rules.foldl (applyRuleEntry d) (mergeDoc (mergeDoc emptyResolved d dd) b db))
    have p34 := mergePreserves_mergeDoc
      (mergeDoc (mergeDoc (mergeDoc emptyResolved d dd) b db) d dd) c dc
    have p45 := mergePreserves_mergeDoc
      (mergeDoc (mergeDoc (mergeDoc (mergeDoc emptyResolved d dd) b db) d dd) c dc) a da
    exact p45.2.2 _ (p34.2.2 _ (p23.2.2 _ hsp))
  · intro kv2 hkv2
    obtain ⟨hsome0b, l0b, hl0b⟩ := hfp.2 kv2 hkv2
    refine ⟨p12.1 _ (p01.1 _ hsome0b), ?_⟩
    obtain ⟨l1b, hl1b⟩ := p01.2.1 _ _ _ hl0b
    obtain ⟨l2b, hl2b⟩ := p12.2.1 _ _ _ hl1b
    exact ⟨l2b, hl2b⟩

/-- C4 (amended): a dangling override — a target id absent from the
accumulated rule set at the point the override is applied — makes validation
fail: `valid = false` with the error `Override for non-existent rule in
<file>` naming the offending document (the rule id is recorded on the
conflict object, not in the error string), while every conflict whose message
does not contain `non-existent` — in particular a plain redefinition — is
reported as a warning; the error list is exactly the `non-existent` conflict
messages followed by the duplicate-id and missing-field checks, and `valid`
is true exactly when it is empty. -/
theorem validateRules_dangling_override_amended (fs : FileSys) (p : String)
    (fuel : Nat) (pre post : List String) (dpath : String) (doc : RuleDocument)
    (ovsPre ovsPost : List (String × RuleOverride)) (k : String) (o : RuleOverride)
    (stPre st : Resolved) (v : Validation)
    (hchain : resolveChain fs p fuel = some (Except.ok (pre ++ dpath :: post)))
    (hdoc : objLookup fs dpath = some doc)
    (hov : doc.overrides = ovsPre ++ (k, o) :: ovsPost)
    (hpre : mergeChain fs pre emptyResolved = Except.ok stPre)
    (hmiss : objLookup (ovsPre.foldl (applyOverrideEntry dpath)
        (doc.rules.foldl (applyRuleEntry dpath) stPre)).rules k = none)
    (hst : resolveRules fs p fuel = some (Except.ok st))
    (hv : validateRules fs p fuel = some (Except.ok v)) :
    v.valid = false ∧
    ("Override for non-existent rule in " ++ dpath) ∈ v.errors ∧
    (v.valid = true ↔ v.errors = []) ∧
    (∀ c, c ∈ st.conflicts → strContains c.conflict "non-existent" = false →
      c.conflict ∈ v.warnings) ∧
    v.errors =
      (st.conflicts.filter (fun c => strContains c.conflict "non-existent")).map
          (fun c => c.conflict) ++
        dupIdErrors [] (st.rules.map Prod.fst) ++ missingFieldErrors st.rules := by
  -- identify the merged state
  have hmc : mergeChain fs (pre ++ dpath :: post) emptyResolved = Except.ok st := by
    unfold resolveRules at hst
    rw [hchain] at hst
    exact Option.some.inj hst
  rw [mergeChain_append] at hmc
  rw [hpre] at hmc
  simp only [mergeChain, hdoc] at hmc
  -- locate the dangling-override conflict
  set stRules := doc.rules.foldl (applyRuleEntry dpath) stPre with hstRules
  set stMid := ovsPre.foldl (applyOverrideEntry dpath) stRules with hstMid
  have hstep : (applyOverrideEntry dpath stMid (k, o)).conflicts =
      stMid.conflicts ++
        [{ ruleId := k, conflict := "Override for non-existent rule in " ++ dpath,
           sources := [dpath] }] := by
    unfold applyOverrideEntry
    rw [hmiss]
  have hmemX : (⟨k, "Override for non-existent rule in " ++ dpath, [dpath]⟩ : Conflict)
      ∈ (mergeDoc stPre dpath doc).conflicts := by
    unfold mergeDoc
    rw [hov, List.foldl_append, List.foldl_cons]
    apply (mergePreserves_foldl_overrides dpath ovsPost _).2.2
    rw [hstep]
    exact List.mem_append_right _ (by simp)
  have hmemSt : (⟨k, "Override for non-existent rule in " ++ dpath, [dpath]⟩ : Conflict)
      ∈ st.conflicts :=
    (mergePreserves_mergeChain fs post _ st hmc).2.2 _ hmemX
  -- identify the validation record
  unfold validateRules at hv
  rw [hst] at hv
  simp only [Option.some.injEq, Except.ok.injEq] at hv
  subst hv
  have hcontains : strContains ("Override for non-existent rule in " ++ dpath)
      "non-existent" = true :=
    strContains_append_left "Override for non-existent rule in " dpath
      "non-existent" (by decide)
  have hErrMem : ("Override for non-existent rule in " ++ dpath) ∈
      ((st.conflicts.filter (fun c => strContains c.conflict "non-existent")).map
          (fun c => c.conflict) ++
        dupIdErrors [] (st.rules.map Prod.fst) ++ missingFieldErrors st.rules) := by
    refine List.mem_append_left _ (List.mem_append_left _ ?_)
    exact List.mem_map_of_mem _ (List.mem_filter.mpr ⟨hmemSt, hcontains⟩)
  refine ⟨?_, hErrMem, ?_, ?_, rfl⟩
  · show List.isEmpty _ = false
    cases hE : ((st.conflicts.filter (fun c => strContains c.conflict "non-existent")).map
        (fun c => c.conflict) ++
      dupIdErrors [] (st.rules.map Prod.fst) ++ missingFieldErrors st.rules) with
    | nil => rw [hE] at hErrMem; cases hErrMem
    | cons x xs => rfl
  · show List.isEmpty _ = true ↔ _
    cases ((st.conflicts.filter (fun c => strContains c.conflict "non-existent")).map
        (fun c => c.conflict) ++
      dupIdErrors [] (st.rules.map Prod.fst) ++ missingFieldErrors st.rules) with
    | nil => simp
    | cons x xs => simp
  · intro c hc hnc
    exact List.mem_map_of_mem _ (List.mem_filter.mpr ⟨hc, by rw [hnc]; rfl⟩)

/-- C5: on a merged rule set whose severities are all among the four
literals, the effective-rules output is exactly the `enabled = true` rules (a
disabled rule never appears), ordered by severity rank
CRITICAL(0) < HIGH(1) < MEDIUM(2) < LOW(3), with equal-severity ties keeping
merge-encounter order (stability: every same-severity pair that is a sublist
of the filtered input remains a sublist of the output). -/
theorem getEffectiveRules_severity_order (fs : FileSys) (p : String) (fuel : Nat)
    (st : Resolved) (eff : List Rule)
    (hst : resolveRules fs p fuel = some (Except.ok st))
    (heff : getEffectiveRules fs p fuel = some (Except.ok eff))
    (hsev : ∀ r, r ∈ st.rules.map Prod.snd → r.severity ∈ allowedSeverities) :
    List.Perm eff ((st.rules.map Prod.snd).filter (fun r => r.enabled)) ∧
    (∀ r, r ∈ eff → r.enabled = true) ∧
    List.Pairwise (fun a b => ruleSevRank a ≤ ruleSevRank b) eff ∧
    (∀ r1 r2 : Rule, r1.severity = r2.severity →
      List.Sublist [r1, r2] ((st.rules.map Prod.snd).filter (fun r => r.enabled)) →
      List.Sublist [r1, r2] eff) := by
  unfold getEffectiveRules at heff
  rw [hst] at heff
  simp only [Option.some.injEq, Except.ok.injEq] at heff
  subst heff
  refine ⟨List.perm_insertionSort ruleLE _, fun r hr => ?_, ?_,
    fun r1 r2 h12 hsub => ?_⟩
  · have hr2 := (List.mem_insertionSort ruleLE).mp hr
    exact List.of_mem_filter hr2
  · exact List.sorted_insertionSort ruleLE _
  · apply List.pair_sublist_insertionSort ?_ hsub
    show ruleSevRank r1 ≤ ruleSevRank r2
    unfold ruleSevRank
    rw [h12]

/-- C6 (amended): `validateRules` reports an error for each rule whose
`name`, `description` or `severity` field is empty, and returns `valid` true
exactly when its error list is empty; the severity-literal check is performed
only by the CLI validator `validateConstitutionalRules`, which reports an
error for each rule whose non-empty severity is outside
CRITICAL/HIGH/MEDIUM/LOW, and is likewise valid exactly when its error list
is empty. -/
theorem validator_required_fields_amended (fs : FileSys) (p : String) (fuel : Nat)
    (st : Resolved) (v w : Validation)
    (hst : resolveRules fs p fuel = some (Except.ok st))
    (hv : validateRules fs p fuel = some (Except.ok v))
    (hw : validateConstitutional fs p fuel = some w) :
    (∀ k r, (k, r) ∈ st.rules →
      (r.name = "" → ("Rule " ++ k ++ " missing required field: name") ∈ v.errors) ∧
      (r.description = "" →
        ("Rule " ++ k ++ " missing required field: description") ∈ v.errors) ∧
      (r.severity = "" →
        ("Rule " ++ k ++ " missing required field: severity") ∈ v.errors)) ∧
    (v.valid = true ↔ v.errors = []) ∧
    (∀ k r, (k, r) ∈ st.rules → r.severity ≠ "" → r.severity ∉ allowedSeverities →
      ("Rule " ++ k ++ ": invalid severity \x27" ++ r.severity ++
        "\x27 (must be CRITICAL, HIGH, MEDIUM, or LOW)") ∈ w.errors) ∧
    (w.valid = true ↔ w.errors = []) := by
  -- the root document is present, so the CLI validator reaches the main branch
  have hchain : ∃ chain, resolveChain fs p fuel = some (Except.ok chain) := by
    unfold resolveRules at hst
    cases hc : resolveChain fs p fuel with
    | none => rw [hc] at hst; cases hst
    | some r =>
      cases r with
      | error e => rw [hc] at hst; simp at hst
      | ok chain => exact ⟨chain, rfl⟩
  obtain ⟨chain, hc⟩ := hchain
  obtain ⟨rootDoc, hroot⟩ := Option.isSome_iff_exists.mp (resolveChain_ok_lookup hc)
  -- identify both validation records
  unfold validateRules at hv
  rw [hst] at hv
  simp only [Option.some.injEq, Except.ok.injEq] at hv
  subst hv
  unfold validateConstitutional at hw
  rw [hroot] at hw
  rw [show validateRules fs p fuel = some (Except.ok
    { valid :=
        ((st.conflicts.filter (fun c => strContains c.conflict "non-existent")).map
            (fun c => c.conflict) ++
          dupIdErrors [] (st.rules.map Prod.fst) ++
          missingFieldErrors st.rules).isEmpty,
      errors :=
        (st.conflicts.filter (fun c => strContains c.conflict "non-existent")).map
            (fun c => c.conflict) ++
          dupIdErrors [] (st.rules.map Prod.fst) ++ missingFieldErrors st.rules,
      warnings :=
        (st.conflicts.filter (fun c => !strContains c.conflict "non-existent")).map
          (fun c => c.conflict) }) from by
      unfold validateRules
      rw [hst]] at hw
  rw [hst] at hw
  simp only [Option.some.injEq] at hw
  subst hw
  refine ⟨fun k r hkr => ⟨fun hn => ?_, fun hd => ?_, fun hs => ?_⟩, ?_, fun k r hkr hne hnl => ?_, ?_⟩
  · exact List.mem_append_right _ (mem_missingFieldErrors_name st.rules k r hkr hn)
  · exact List.mem_append_right _
      (mem_missingFieldErrors_description st.rules k r hkr hd)
  · exact List.mem_append_right _ (mem_missingFieldErrors_severity st.rules k r hkr hs)
  · cases ((st.conflicts.filter (fun c => strContains c.conflict "non-existent")).map
        (fun c => c.conflict) ++
      dupIdErrors [] (st.rules.map Prod.fst) ++ missingFieldErrors st.rules) with
    | nil => simp
    | cons x xs => simp
  · exact List.mem_append_right _
      (mem_vcRuleErrors_invalid_severity st.rules k r hkr hne hnl)
  · cases ((if ((st.conflicts.filter (fun c => strContains c.conflict "non-existent")).map
          (fun c => c.conflict) ++
        dupIdErrors [] (st.rules.map Prod.fst) ++ missingFieldErrors st.rules).isEmpty
        then ([] : List String) else
        (st.conflicts.filter (fun c => strContains c.conflict "non-existent")).map
            (fun c => c.conflict) ++
          dupIdErrors [] (st.rules.map Prod.fst) ++ missingFieldErrors st.rules) ++
        (st.conflicts.filter (fun c => strContains c.conflict "non-existent")).map
          (fun c => c.conflict) ++
        vcRuleErrors st.rules) with
    | nil => simp
    | cons x xs => simp

/-- C8: starting from a session with no entry and no rules file found,
appending `MAX_RULES_PER_SESSION + 1` non-empty rule strings one by one
leaves exactly the last 50 strings in append order: the first-appended string
has been evicted and the final list has length exactly 50. -/
theorem sessionStore_fifo_eviction (env : InitEnv) (now : Nat) (sid : String)
    (rules : List String)
    (hpf : env.pathFound = false) (hsid : sid ≠ "")
    (hrs : ∀ r, r ∈ rules → r ≠ "")
    (hlen : rules.length = MAX_RULES_PER_SESSION + 1) :
    objLookup (rules.foldl (fun m r => updateConstitution env now m sid r) []) sid =
      some { rules := rules.drop 1, fileLoaded := false, updated := now } ∧
    (rules.drop 1).length = MAX_RULES_PER_SESSION := by
  cases rules with
  | nil => simp [MAX_RULES_PER_SESSION] at hlen
  | cons r0 rest =>
    have hr0 : r0 ≠ "" := hrs r0 (List.mem_cons_self _ _)
    have hrest : rest.length = MAX_RULES_PER_SESSION := by
      simpa using hlen
    have hstep1 : updateConstitution env now [] sid r0 =
        [(sid, { rules := [r0], fileLoaded := false, updated := now })] := by
      unfold updateConstitution initSessionConstitution
      simp [hsid, hr0, hpf, objLookup, objInsert, listStep, MAX_RULES_PER_SESSION]
    have hfold := @foldl_update_lookup env now sid rest
      [(sid, { rules := [r0], fileLoaded := false, updated := now })] [r0] false
      hsid (fun x hx => hrs x (List.mem_cons_of_mem _ hx)) (by simp [objLookup])
    constructor
    · simp only [List.foldl_cons, hstep1]
      rw [hfold]
      have hwin := foldl_listStep_window rest [r0]
        (by simp [MAX_RULES_PER_SESSION])
      rw [hwin]
      have harith : [r0].length + rest.length - MAX_RULES_PER_SESSION = 1 := by
        simp only [List.length_singleton, hrest, MAX_RULES_PER_SESSION]
      rw [harith]
      rfl
    · simp only [List.length_drop, hlen]
      simp [MAX_RULES_PER_SESSION]

/-- C9: an entry whose `updated` timestamp is older than the TTL at the
moment the sweep runs is absent afterwards, and a subsequent `get`
re-initializes from files exactly as a brand-new session would; conversely an
entry touched within the TTL survives the sweep and a later `get` returns its
rules unchanged, touching only `updated` — it is never silently
re-initialized. -/
theorem sessionStore_ttl_expiry (env : InitEnv) (m : ConstitutionMap)
    (sid : String) (e : ConstitutionEntry) (now t : Nat)
    (hnd : (m.map Prod.fst).Nodup) (he : objLookup m sid = some e) :
    (SESSION_TTL_MS < now - e.updated →
      objLookup (cleanupStore now m) sid = none ∧
      (getConstitution env t (cleanupStore now m) sid).1 =
        (if env.pathFound then env.fileRules else []) ∧
      objLookup (getConstitution env t (cleanupStore now m) sid).2 sid =
        some (if env.pathFound then
          { rules := env.fileRules, fileLoaded := true, updated := t }
        else { rules := [], fileLoaded := false, updated := t })) ∧
    (now - e.updated ≤ SESSION_TTL_MS →
      objLookup (cleanupStore now m) sid = some e ∧
      (getConstitution env t (cleanupStore now m) sid).1 = e.rules ∧
      objLookup (getConstitution env t (cleanupStore now m) sid).2 sid =
        some { e with updated := t }) := by
  have hclean := @objLookup_cleanupStore now m sid e hnd he
  constructor
  · intro hexp
    have hnone : objLookup (cleanupStore now m) sid = none := by
      rw [hclean, if_neg (by omega)]
    refine ⟨hnone, ?_, ?_⟩
    · unfold getConstitution initSessionConstitution
      rw [hnone]
      by_cases hp : env.pathFound
      · simp [hp, objLookup_objInsert_self]
      · simp [hp, objLookup_objInsert_self]
    · unfold getConstitution initSessionConstitution
      rw [hnone]
      by_cases hp : env.pathFound
      · simp [hp, objLookup_objInsert_self]
      · simp [hp, objLookup_objInsert_self]
  · intro hlive
    have hsome : objLookup (cleanupStore now m) sid = some e := by
      rw [hclean, if_pos hlive]
    refine ⟨hsome, ?_, ?_⟩
    · unfold getConstitution initSessionConstitution
      rw [hsome]
      simp only [hsome]
    · unfold getConstitution initSessionConstitution
      rw [hsome]
      simp only [hsome, objLookup_objInsert_self]

/-- C7 (amended): after any operation sequence starting from an empty store,
every entry's rule list has length at most `MAX_RULES_PER_SESSION` provided
each operation that can lazily initialize observes a file rule list within
the capacity (initialization does not truncate, which is what breaks the
unconditional claim); appending to a full list first evicts the oldest entry
(FIFO `shift` then `push`), and reset truncates its input to the capacity. -/
theorem sessionStore_cap_amended :
    (∀ (ops : List (Nat × StoreOp)),
      (∀ op, op ∈ ops → opEnvBounded op.2) → capBound (runOps ops [])) ∧
    (∀ (env : InitEnv) (now : Nat) (m : ConstitutionMap) (sid rule : String)
        (e : ConstitutionEntry), sid ≠ "" → rule ≠ "" →
      objLookup m sid = some e → MAX_RULES_PER_SESSION ≤ e.rules.length →
      objLookup (updateConstitution env now m sid rule) sid =
        some { e with rules := e.rules.drop 1 ++ [rule], updated := now }) ∧
    (∀ (now : Nat) (m : ConstitutionMap) (sid : String) (rules : List String),
      sid ≠ "" →
      objLookup (resetConstitution now m sid rules) sid =
        some { rules := rules.take MAX_RULES_PER_SESSION, fileLoaded := false,
               updated := now }) := by
  refine ⟨fun ops h => capBound_runOps ops [] h (fun kv hkv => by cases hkv),
    fun env now m sid rule e hsid hrule he hfull => ?_,
    fun now m sid rules hsid => ?_⟩
  · rw [updateConstitution_eq hsid hrule he, objLookup_objInsert_self]
    have : listStep e.rules rule = e.rules.drop 1 ++ [rule] := by
      unfold listStep
      rw [if_pos hfull]
    rw [this]
  · unfold resetConstitution
    rw [if_neg hsid]
    exact objLookup_objInsert_self _ _ _

/-- C7 counterexample: lazily initializing a session from a 51-entry file
rule list seeds all 51 strings, so the entry exceeds the 50-rule capacity —
refuting the unconditional cap invariant. -/
theorem sessionStore_cap_counterexample :
    runOps [(0, StoreOp.opInit
        { pathFound := true, fileRules := List.replicate 51 "x" } "s")] [] =
      [("s", { rules := List.replicate 51 "x", fileLoaded := true, updated := 0 })] ∧
    ¬ (List.replicate (51 : Nat) "x").length ≤ MAX_RULES_PER_SESSION :=
  ⟨rfl, by decide⟩

/-- C7 witness: the bounded invariant evaluated on a concrete one-operation
sequence. -/
theorem sessionStore_cap_amended_witness :
    opEnvBounded (StoreOp.opInit { pathFound := true, fileRules := ["a"] } "s") ∧
    capBound (runOps [(0, StoreOp.opInit
      { pathFound := true, fileRules := ["a"] } "s")] []) :=
  ⟨by show (["a"] : List String).length ≤ MAX_RULES_PER_SESSION; decide,
   sessionStore_cap_amended.1
     [(0, StoreOp.opInit { pathFound := true, fileRules := ["a"] } "s")]
     (fun op hop => by
       simp only [List.mem_singleton] at hop
       subst hop
       show (["a"] : List String).length ≤ MAX_RULES_PER_SESSION
       decide)⟩

/-- C3 witness: the override-after-redefinition law evaluated on a concrete
two-document chain. -/
theorem resolveRules_override_after_redefinition_witness :
    ("A.json" : String) ≠ "B.json" ∧
    resolveRules exC3fs "B.json" 3 =
      some (Except.ok
        ⟨[("r1", applyOverride exRuleB exOv)],
         [("r1", ["A.json", "B.json", "B.json" ++ " (override)"])],
         [⟨"r1", "Rule redefined in " ++ "B.json", ["A.json", "B.json"]⟩]⟩) :=
  ⟨by decide,
   resolveRules_override_after_redefinition exC3fs "A.json" "B.json" "r1"
     exRule exRuleB exOv _ _ (by decide) rfl rfl rfl rfl 3 (le_refl 3)⟩

/-- C4 counterexample: a chain whose `child.json` carries an override for the
absent id `r9` yields `valid = false`, but the single error message
`Override for non-existent rule in child.json` does not mention `r9` —
refuting the claim that some error mentions the dangling rule id. -/
theorem validateRules_dangling_override_counterexample :
    validateRules exC4fs "child.json" 3 =
      some (Except.ok ⟨false,
        ["Override for non-existent rule in child.json"], []⟩) ∧
    strContains "Override for non-existent rule in child.json" "r9" = false :=
  ⟨rfl, by decide⟩

/-- C4 witness: the amended dangling-override law evaluated on a concrete
chain. -/
theorem validateRules_dangling_override_amended_witness :
    validateRules exC4fs "child.json" 3 = some (Except.ok exC4v) ∧
    exC4v.valid = false ∧
    ("Override for non-existent rule in " ++ "child.json") ∈ exC4v.errors := by
  have h := validateRules_dangling_override_amended exC4fs "child.json" 3
    ["base.json"] [] "child.json" (mkDoc ["base.json"] [] [("r9", exOv)])
    [] [] "r9" exOv exC4stPre exC4st exC4v rfl rfl rfl rfl rfl rfl rfl
  exact ⟨rfl, h.1, h.2.1⟩

/-- C5 witness: the selector evaluated on a concrete five-rule document with
one disabled rule and a severity tie. -/
theorem getEffectiveRules_severity_order_witness :
    getEffectiveRules exEffFs "e.json" 2 = some (Except.ok exEffList) ∧
    (∀ r, r ∈ exEffList → r.enabled = true) :=
  ⟨rfl,
   (getEffectiveRules_severity_order exEffFs "e.json" 2 exEffSt exEffList
     rfl rfl (by decide)).2.1⟩

/-- C6 counterexample: a merged set containing a rule whose non-empty
severity `BOGUS` is not one of the four literals still passes `validateRules`
with `valid = true` and no errors — `validateRules` checks only that the
field is non-empty; the literal check exists solely in the CLI validator. -/
theorem validateRules_invalid_severity_counterexample :
    resolveRules exC6fs "root.json" 2 = some (Except.ok exC6st) ∧
    exBogusRule.severity ∉ allowedSeverities ∧
    exBogusRule.severity ≠ "" ∧
    validateRules exC6fs "root.json" 2 = some (Except.ok ⟨true, [], []⟩) :=
  ⟨rfl, by decide, by decide, rfl⟩

/-- C6 witness: the amended validator law evaluated on the `BOGUS`-severity
document. -/
theorem validator_required_fields_amended_witness :
    validateConstitutional exC6fs "root.json" 2 = some exC6w ∧
    ("Rule " ++ "r1" ++ ": invalid severity \x27" ++ "BOGUS" ++
      "\x27 (must be CRITICAL, HIGH, MEDIUM, or LOW)") ∈ exC6w.errors :=
  ⟨rfl,
   (validator_required_fields_amended exC6fs "root.json" 2 exC6st exC6v exC6w
     rfl rfl rfl).2.2.1 "r1" exBogusRule (by decide) (by decide) (by decide)⟩

/-- C8 witness: the eviction law evaluated on 51 concrete appends. -/
theorem sessionStore_fifo_eviction_witness :
    objLookup ((List.replicate 50 "a" ++ ["b"]).foldl
        (fun m r => updateConstitution ⟨false, []⟩ 7 m "s" r) []) "s" =
      some ⟨(List.replicate 50 "a" ++ ["b"]).drop 1, false, 7⟩ ∧
    ((List.replicate 50 "a" ++ ["b"]).drop 1).length = MAX_RULES_PER_SESSION := by
  have h := sessionStore_fifo_eviction ⟨false, []⟩ 7 "s"
    (List.replicate 50 "a" ++ ["b"]) rfl (by decide) (by decide) (by decide)
  exact ⟨h.1, h.2⟩

/-- C9 witness: the expiry law evaluated on a concrete expired entry. -/
theorem sessionStore_ttl_expiry_witness :
    SESSION_TTL_MS < (SESSION_TTL_MS + 1) - (0 : Nat) ∧
    objLookup (cleanupStore (SESSION_TTL_MS + 1)
      [("s", ⟨["r"], false, 0⟩)]) "s" = none := by
  have h := (sessionStore_ttl_expiry ⟨false, []⟩ [("s", ⟨["r"], false, 0⟩)]
    "s" ⟨["r"], false, 0⟩ (SESSION_TTL_MS + 1) 5 (by decide) rfl).1 (by decide)
  exact ⟨by decide, h.1⟩

/-- C10 witness: the diamond law evaluated on a concrete four-document
file system. -/
theorem resolveRules_diamond_duplicate_merge_witness :
    resolveChain exDiaFs "a" 5 = some (Except.ok ["d", "b", "d", "c", "a"]) ∧
    ∃ st, resolveRules exDiaFs "a" 5 = some (Except.ok st) ∧
      ∀ kv, kv ∈ (mkLeafDoc [("r1", exRule)]).rules →
        ({ ruleId := kv.1, conflict := "Rule redefined in " ++ "d",
           sources := ["d", "d"] } : Conflict) ∈ st.conflicts :=
  resolveRules_diamond_duplicate_merge exDiaFs "a" "b" "c" "d" _ _ _ _
    (by decide) (by decide) (by decide) (by decide) (by decide)
    rfl rfl rfl rfl rfl rfl rfl rfl 5 (le_refl 5)
